import Mathlib

/-!
Verification of the asset-graph core of
`src/js_modules/dagit/packages/core/src/workspace/AssetGraphRoot.tsx`.

The file shallowly embeds the four core functions of that module —
`getNodeDimensions`, `buildGraphData`, `graphHasCycles`,
`buildGraphComputeStatuses` (with its helper `findComputeStatusForId`)
and `runForDisplay` — and proves or refutes the frozen claims about them.

Modelling conventions:
* JavaScript objects (string-keyed, insertion-ordered, key update in place)
  are association lists `List (String × α)` manipulated only through
  `alookup` / `upsert`, which reproduce object-literal spread and
  assignment semantics.
* A JavaScript `Set` of strings is an insertion-ordered duplicate-free
  `List String`; `Set.delete` is `List.erase`, `values().next().value`
  is the head.
* `JSON.stringify` of a string array is `jsonStringifyPath` (quoting each
  segment and escaping quote and backslash characters).
* JS numbers holding timestamps are `Int`; the comparison
  `timestamps[uid] > ts`, where either side may be `undefined`, is `jsGt`
  on `Option Int` (any comparison against `undefined` is false in JS).
* Pixel dimensions are `ℚ` (`9.5 * L` is exact in binary floating point
  for every realistic `L`, so `ℚ` models the float arithmetic faithfully).
* The unbounded recursions of the source (`search` inside
  `graphHasCycles`, `findComputeStatusForId`, and the `while` loop of
  `graphHasCycles`) take an explicit fuel argument and return an `Option`;
  `Option.none` means the computation did not finish within the given
  fuel.  The wrappers pass fuel that is proved (or argued in the
  accompanying theorems) sufficient for every terminating run.
* Code that can throw a `TypeError` (`runForDisplay` dereferencing the
  first materialization) returns `Except String`.
* Fields of the GraphQL records that the core never reads (`id`,
  `opName`, metadata entries, …) are omitted from the record types.
-/

namespace AssetGraph

/-- Lookup in a JS-object association list (first matching key). -/
def alookup {α : Type} : List (String × α) → String → Option α
  | [], _ => Option.none
  | (k, v) :: t, key => if k = key then some v else alookup t key

/-- JS object assignment `o[key] = val`: update in place if the key exists
(keeping its position), otherwise append a new entry. -/
def upsert {α : Type} : List (String × α) → String → α → List (String × α)
  | [], key, val => [(key, val)]
  | (k, v) :: t, key, val =>
    if k = key then (k, val) :: t else (k, v) :: upsert t key val

/-- `Object.keys`, in insertion order. -/
def objKeys {α : Type} (l : List (String × α)) : List String := l.map (·.1)

/-- `Object.values`, in insertion order. -/
def objValues {α : Type} (l : List (String × α)) : List α := l.map (·.2)

/-- An asset key: ordered path segments (GraphQL `assetKey { path }`). -/
structure AssetKey where
  path : List String
deriving DecidableEq

/-- The `PipelineRun` variant of `runOrError` (fields the UI reads). -/
structure PipelineRun where
  runId : String
  status : String
  pipelineName : String
  mode : String
deriving DecidableEq

/-- `runOrError`: either the known `PipelineRun` record variant or any
other variant (on which the query selects no fields). -/
inductive RunOrError where
  | pipelineRun (run : PipelineRun)
  | other
deriving DecidableEq

/-- `stepStats` of a materialization event; both times are nullable. -/
structure StepStats where
  startTime : Option Int
  endTime : Option Int
deriving DecidableEq

/-- `materializationEvent` (only the field the core reads). -/
structure MaterializationEvent where
  stepStats : Option StepStats
deriving DecidableEq

/-- One entry of `assetMaterializations`. -/
structure AssetMaterialization where
  materializationEvent : MaterializationEvent
  runOrError : RunOrError
deriving DecidableEq

/-- `upstreamAsset` of a dependency. -/
structure UpstreamAsset where
  assetKey : AssetKey
deriving DecidableEq

/-- One entry of `dependencies`. -/
structure Dependency where
  inputName : String
  upstreamAsset : UpstreamAsset
deriving DecidableEq

/-- An asset definition record as consumed by the core. -/
structure AssetDefinition where
  assetKey : AssetKey
  description : Option String
  jobNames : List String
  dependencies : List Dependency
  assetMaterializations : List AssetMaterialization
deriving DecidableEq

/-- A graph node: `{id, assetKey, definition}`. -/
structure Node where
  id : String
  assetKey : AssetKey
  definition : AssetDefinition
deriving DecidableEq

/-- `GraphData`: node map plus downstream adjacency
`downstream[upstreamId][downstreamId] = inputName`. -/
structure GraphData where
  nodes : List (String × Node)
  downstream : List (String × List (String × String))
deriving DecidableEq

/-- Escape of one character inside a JSON string literal (the two
characters `JSON.stringify` must escape in asset-key segments). -/
def jsonEscapeChar (c : Char) : String :=
  if c = '"' then "\\\"" else if c = '\\' then "\\\\" else String.singleton c

/-- `JSON.stringify` of one string. -/
def jsonStringifyString (s : String) : String :=
  "\"" ++ String.join (s.data.map jsonEscapeChar) ++ "\""

/-- `JSON.stringify(path)` for a string array `path`. -/
def jsonStringifyPath (path : List String) : String :=
  "[" ++ String.intercalate "," (path.map jsonStringifyString) ++ "]"

/-- JS truthiness of the nullable string `description`. -/
def jsTruthyStr : Option String → Bool
  | Option.none => false
  | some s => decide (s ≠ "")

/-- `runForDisplay`: reads `assetMaterializations[0]?.runOrError` and then
unconditionally dereferences `.__typename` on it, so it throws a
`TypeError` when there is no materialization; otherwise it returns the
run when the variant is `PipelineRun` and `null` otherwise. -/
def runForDisplay (d : AssetDefinition) : Except String (Option PipelineRun) :=
  match d.assetMaterializations.head? with
  | Option.none => Except.error "TypeError: undefined has no properties"
  | some m =>
    match m.runOrError with
    | RunOrError.pipelineRun run => Except.ok (some run)
    | RunOrError.other => Except.ok Option.none

/-- Width/height pair returned by `getNodeDimensions`. -/
structure NodeDimensions where
  width : ℚ
  height : ℚ
deriving DecidableEq

/-- `getNodeDimensions` (lines 68-80 of the source). -/
def getNodeDimensions (d : AssetDefinition) : Except String NodeDimensions := do
  let height0 : ℚ := 40
  let height1 : ℚ := if jsTruthyStr d.description then height0 + 25 else height0
  let height2 : ℚ ←
    if d.assetMaterializations.length ≠ 0 then do
      let run ← runForDisplay d
      pure (if run.isSome then height1 + 22 + 22 else height1 + 22)
    else
      pure height1
  Except.ok
    ⟨max 250 (((String.intercalate ">" d.assetKey.path).length : ℚ) * (9.5 : ℚ)) + 25,
      height2⟩

/-- `buildGraphData` (lines 82-103 of the source). -/
def buildGraphData (assetDefinitions : List AssetDefinition) : GraphData :=
  assetDefinitions.foldl
    (fun g definition =>
      let assetKeyJson := jsonStringifyPath definition.assetKey.path
      let nodes :=
        upsert g.nodes assetKeyJson
          ⟨assetKeyJson, definition.assetKey, definition⟩
      let downstream :=
        definition.dependencies.foldl
          (fun ds dependency =>
            let upstreamAssetKeyJson :=
              jsonStringifyPath dependency.upstreamAsset.assetKey.path
            upsert ds upstreamAssetKeyJson
              (upsert ((alookup ds upstreamAssetKeyJson).getD [])
                assetKeyJson dependency.inputName))
          g.downstream
      ⟨nodes, downstream⟩)
    ⟨[], []⟩

/-- `Object.keys(graphData.nodes)`, the initial contents of the traversal
set of `graphHasCycles`. -/
def nodeKeys (g : GraphData) : List String := objKeys g.nodes

/-- `Object.keys(graphData.downstream[node] || {})`. -/
def downstreamKeysOf (g : GraphData) (node : String) : List String :=
  objKeys ((alookup g.downstream node).getD [])

/-- The recursive `search` of `graphHasCycles` (lines 107-118), with the
mutable unvisited set threaded through and an explicit fuel.  The
`.some(...)` short-circuit over the downstream neighbours is a left fold
whose accumulator stops calling `search` once a `true` (or fuel
exhaustion) has been produced.  `Option.none` means the fuel ran out. -/
def searchF (g : GraphData) :
    Nat → List String → String → List String → Option (Bool × List String)
  | 0, _, _, _ => Option.none
  | fuel + 1, stack, node, ns =>
    if node ∈ stack then some (true, ns)
    else if node ∈ ns then
      (downstreamKeysOf g node).foldl
        (fun acc nextNode =>
          match acc with
          | Option.none => Option.none
          | some (true, ns') => some (true, ns')
          | some (false, ns') => searchF g fuel (stack ++ [node]) nextNode ns')
        (some (false, ns.erase node))
    else some (false, ns)

/-- The `while (nodes.size !== 0)` loop of `graphHasCycles`
(lines 119-123).  Faithful to the source, the body evaluates
`hasCycles = hasCycles || search([], nodes.values().next().value)`: once
`hasCycles` is `true` the `||` short-circuits, `search` is not called and
the set is left unchanged.  Each `search` call receives fuel
`ns.length + 1`, which the adequacy lemmas show is enough for any run. -/
def hasCyclesLoop (g : GraphData) : Nat → Bool → List String → Option Bool
  | 0, _, _ => Option.none
  | fuel + 1, hasCycles, ns =>
    match ns with
    | [] => some hasCycles
    | n :: _ =>
      if hasCycles then hasCyclesLoop g fuel hasCycles ns
      else
        match searchF g (ns.length + 1) [] n ns with
        | Option.none => Option.none
        | some (found, ns') => hasCyclesLoop g fuel found ns'

/-- `graphHasCycles` (lines 105-124).  The loop fuel `|nodes| + 1`
suffices whenever the source loop terminates, because every iteration of
the source loop that continues must have removed at least one node from
the set — except the short-circuit spin after a cycle has been found with
nodes left over, which never terminates (see the theorem for C1). -/
def graphHasCycles (g : GraphData) : Option Bool :=
  hasCyclesLoop g ((nodeKeys g).length + 1) false (nodeKeys g)

/-- The four-valued freshness status. -/
inductive Status where
  | good
  | old
  | downstreamFromOld
  | none
deriving DecidableEq

/-- JS `>` on numbers of which either may be `undefined` (any comparison
involving `undefined` is false). -/
def jsGt : Option Int → Option Int → Bool
  | some a, some b => decide (b < a)
  | _, _ => false

/-- `assetMaterializations[0]?.materializationEvent.stepStats?.startTime || 0`
(line 569-570). -/
def materializationTimestamp (d : AssetDefinition) : Int :=
  match d.assetMaterializations.head? with
  | Option.none => 0
  | some m =>
    match m.materializationEvent.stepStats with
    | Option.none => 0
    | some ss => ss.startTime.getD 0

/-- The `timestamps` map of `buildGraphComputeStatuses` (lines 567-571). -/
def timestampsOf (g : GraphData) : List (String × Int) :=
  g.nodes.foldl (fun tm p => upsert tm p.2.id (materializationTimestamp p.2.definition)) []

/-- The `upstream` inversion of the adjacency (lines 572-580):
`upstream[downstreamId].push(upstreamId)` over all edges, in insertion
order. -/
def buildUpstream (ds : List (String × List (String × String))) :
    List (String × List String) :=
  ds.foldl
    (fun up p =>
      p.2.foldl
        (fun up2 q => upsert up2 q.1 (((alookup up2 q.1).getD []) ++ [p.1]))
        up)
    []

/-- The first status loop (lines 584-588): every node with an empty
materialization list is assigned `none` up front. -/
def preStatuses (g : GraphData) : List (String × Status) :=
  g.nodes.foldl
    (fun st p =>
      if p.2.definition.assetMaterializations.length = 0 then
        upsert st p.2.id Status.none
      else st)
    []

/-- `findComputeStatusForId` (lines 598-619), with the mutable `statuses`
memo threaded through and an explicit fuel.  Crucially — and faithfully to
the source — the memo entry for `id` is written only *after* the recursive
calls on the upstream ids return, so the memo gives no protection against
cycles.  The `.some(...)` over the upstream ids is again a short-circuit
left fold.  `Option.none` means the fuel ran out. -/
def findComputeStatusForIdF :
    Nat → List (String × Int) → List (String × Status) →
    List (String × List String) → String → Option (Status × List (String × Status))
  | 0, _, _, _, _ => Option.none
  | fuel + 1, tm, statuses, up, id =>
    let ts := alookup tm id
    let upstreamIds := (alookup up id).getD []
    match alookup statuses id with
    | some s => some (s, statuses)
    | Option.none =>
      if upstreamIds.any (fun uid => jsGt (alookup tm uid) ts) then
        some (Status.old, upsert statuses id Status.old)
      else
        match
          upstreamIds.foldl
            (fun acc uid =>
              match acc with
              | Option.none => Option.none
              | some (true, st) => some (true, st)
              | some (false, st) =>
                match findComputeStatusForIdF fuel tm st up uid with
                | Option.none => Option.none
                | some (s, st') => some (decide (s ≠ Status.good), st'))
            (some (false, statuses))
        with
        | Option.none => Option.none
        | some (found, st') =>
          let s := if found then Status.downstreamFromOld else Status.good
          some (s, upsert st' id s)

/-- Every id that can ever be passed to `findComputeStatusForId` while
computing the statuses of `g`: the node keys, the keys and members of the
inverted adjacency, and the re-stringified asset keys used by the second
status loop.  Used only to size the fuel. -/
def univIds (g : GraphData) : List String :=
  nodeKeys g ++ objKeys (buildUpstream g.downstream) ++
    ((buildUpstream g.downstream).map (·.2)).flatten ++
    g.nodes.map (fun p => jsonStringifyPath p.2.assetKey.path)

/-- Fuel passed to each `findComputeStatusForId` call: one more than the
number of candidate ids, enough for every terminating run (a run whose
call chain repeats an id never terminates, because the memo entry of a
pending id is not yet written — see the theorems for C3). -/
def statusFuel (g : GraphData) : Nat := (univIds g).length + 1

/-- The second status loop (lines 589-592):
`statuses[id] = findComputeStatusForId(timestamps, statuses, upstream, id)`
with `id = JSON.stringify(asset.assetKey.path)`, over the node values in
insertion order. -/
def statusLoop (g : GraphData) (tm : List (String × Int))
    (up : List (String × List String)) :
    List (String × Node) → List (String × Status) → Option (List (String × Status))
  | [], st => some st
  | p :: rest, st =>
    let id := jsonStringifyPath p.2.assetKey.path
    match findComputeStatusForIdF (statusFuel g) tm st up id with
    | Option.none => Option.none
    | some (s, st') => statusLoop g tm up rest (upsert st' id s)

/-- `buildGraphComputeStatuses` (lines 566-594). -/
def buildGraphComputeStatuses (g : GraphData) : Option (List (String × Status)) :=
  statusLoop g (timestampsOf g) (buildUpstream g.downstream) g.nodes (preStatuses g)

/-! ### Graphs, edges and cycles (specification-side notions) -/

/-- The raw edge relation of the stored adjacency: `edgeR g a b` holds when
`b` is a key of `downstream[a]`. -/
def edgeR (g : GraphData) (a b : String) : Prop := b ∈ downstreamKeysOf g a

/-- `R` has a directed cycle: a nonempty list whose consecutive members
are `R`-related and whose last member is `R`-related back to the first. -/
def HasChainCycle (R : String → String → Prop) : Prop :=
  ∃ c : List String, c ≠ [] ∧ List.Chain' R (c ++ c.take 1)

/-- A directed cycle all of whose members are present in the node map —
exactly the situation the depth-first search of `graphHasCycles` can
reach. -/
def NodeCycle (g : GraphData) : Prop :=
  ∃ c : List String, c ≠ [] ∧ List.Chain' (edgeR g) (c ++ c.take 1) ∧
    ∀ x ∈ c, x ∈ nodeKeys g

/-- The graph data is acyclic: no directed cycle anywhere in the stored
adjacency. -/
def AcyclicGraph (g : GraphData) : Prop := ¬ HasChainCycle (edgeR g)

/-- The inverted relation actually followed by the status recursion:
`upE g a b` holds when `b` is listed among the direct upstream ids of
`a` in the inverted adjacency. -/
def upE (g : GraphData) (a b : String) : Prop :=
  b ∈ (alookup (buildUpstream g.downstream) a).getD []

/-- Recursive restatement of the `.some(...)` fold inside `searchF`. -/
def searchMany (g : GraphData) (fuel : Nat) (stack2 : List String) :
    List String → List String → Option (Bool × List String)
  | [], ns => some (false, ns)
  | n :: rest, ns =>
    match searchF g fuel stack2 n ns with
    | Option.none => Option.none
    | some (true, ns') => some (true, ns')
    | some (false, ns') => searchMany g fuel stack2 rest ns'

instance (g : GraphData) (a b : String) : Decidable (edgeR g a b) :=
  inferInstanceAs (Decidable (b ∈ downstreamKeysOf g a))

/-! ### Concrete fixtures used by the theorems and witnesses -/

/-- A materialization fixture: recorded at start time `t`, run unknown. -/
def matAt (t : Int) : AssetMaterialization :=
  ⟨⟨some ⟨some t, some t⟩⟩, RunOrError.other⟩

/-- An asset-definition fixture: path, `(inputName, upstream path)`
dependency list, materializations. -/
def defOf (path : List String) (deps : List (String × List String))
    (mats : List AssetMaterialization) : AssetDefinition :=
  ⟨⟨path⟩, Option.none, [], deps.map (fun d => ⟨d.1, ⟨⟨d.2⟩⟩⟩), mats⟩

/-- Fixture for C1: a self-loop on `a` plus an unrelated node `b`. -/
def c1Defs : List AssetDefinition :=
  [defOf ["a"] [("in", ["a"])] [matAt 1], defOf ["b"] [] [matAt 1]]

/-- The graph of `c1Defs`. -/
def c1Graph : GraphData := buildGraphData c1Defs

/-- Fixture for C5: the directed cycle `a → b → c → a` (each definition
declares the previous asset as its upstream dependency). -/
def c5Defs : List AssetDefinition :=
  [defOf ["a"] [("in", ["c"])] [matAt 1],
   defOf ["b"] [("in", ["a"])] [matAt 1],
   defOf ["c"] [("in", ["b"])] [matAt 1]]

/-- The graph of `c5Defs`. -/
def c5Graph : GraphData := buildGraphData c5Defs

/-! ### Specification-side notions for the status computation -/

/-- Well-formedness that every `GraphData` materialised from JavaScript
objects enjoys: no duplicate keys anywhere, and every stored node's `id`
field equals its key in the node map. -/
def WFGraph (g : GraphData) : Prop :=
  (objKeys g.nodes).Nodup ∧ (objKeys g.downstream).Nodup ∧
    (∀ p ∈ g.downstream, (objKeys p.2).Nodup) ∧ (∀ p ∈ g.nodes, p.2.id = p.1)

instance (g : GraphData) : Decidable (WFGraph g) := by
  unfold WFGraph
  infer_instance

/-- Node ids coincide with the `JSON.stringify` of their asset-key path —
true by construction for every graph produced by `buildGraphData`. -/
def CoherentIds (g : GraphData) : Prop :=
  ∀ p ∈ g.nodes, jsonStringifyPath p.2.assetKey.path = p.1

instance (g : GraphData) : Decidable (CoherentIds g) := by
  unfold CoherentIds
  infer_instance

/-- The direct upstream ids that `findComputeStatusForId` reads for `id`:
`upstream[id] || []`. -/
def upstreamIdsOf (g : GraphData) (id : String) : List String :=
  (alookup (buildUpstream g.downstream) id).getD []

/-- Whether `id` is one of the ids pre-assigned `none` by the first
status loop (a node with an empty materialization list). -/
def preNoneB (g : GraphData) (id : String) : Bool :=
  g.nodes.any (fun p =>
    decide (p.2.id = id) && p.2.definition.assetMaterializations.isEmpty)

/-- The `old` condition of the status recursion at `id`: some direct
upstream id has a strictly larger collected timestamp. -/
def oldCondB (g : GraphData) (id : String) : Bool :=
  (upstreamIdsOf g id).any
    (fun uid => jsGt (alookup (timestampsOf g) uid) (alookup (timestampsOf g) id))

/-- Pure (memo-free) reference status, fuel-indexed.  On acyclic graphs
it stabilises once the fuel exceeds the longest upstream chain. -/
def specStatusF (g : GraphData) : Nat → String → Status
  | 0, _ => Status.good
  | fuel + 1, id =>
    if preNoneB g id then Status.none
    else if oldCondB g id then Status.old
    else if (upstreamIdsOf g id).any
        (fun uid => decide (specStatusF g fuel uid ≠ Status.good)) then
      Status.downstreamFromOld
    else Status.good

/-- The reference status at the canonical fuel. -/
def specStatus (g : GraphData) (id : String) : Status :=
  specStatusF g ((univIds g).length + 1) id

/-- The status formula asserted by the specification, read against the
final status map `st` itself: `old` when a direct upstream's collected
timestamp is strictly newer, else `downstream-from-old` when some direct
upstream's own computed status is not `good` (absent or `none` included),
else `good`. -/
def claimStatusFormula (g : GraphData) (st : List (String × Status)) (id : String) :
    Status :=
  if oldCondB g id then Status.old
  else if (upstreamIdsOf g id).any
      (fun uid => decide (alookup st uid ≠ some Status.good)) then
    Status.downstreamFromOld
  else Status.good

/-- Memo-table invariant: every memoised status equals the reference
status. -/
def MemoInv (g : GraphData) (st : List (String × Status)) : Prop :=
  ∀ id s, alookup st id = some s → s = specStatus g id

/-- Every pre-assignable id is already in the memo table. -/
def PreDomInv (g : GraphData) (st : List (String × Status)) : Prop :=
  ∀ id, preNoneB g id = true → (alookup st id).isSome

/-- Support invariant: a memoised `good` had all its direct upstreams
memoised; a memoised `downstream-from-old` has a memoised non-`good`
direct upstream. -/
def SuppInv (g : GraphData) (st : List (String × Status)) : Prop :=
  ∀ id,
    (alookup st id = some Status.good →
      ∀ uid ∈ upstreamIdsOf g id, (alookup st uid).isSome) ∧
    (alookup st id = some Status.downstreamFromOld →
      ∃ uid ∈ upstreamIdsOf g id, (alookup st uid).isSome ∧
        specStatus g uid ≠ Status.good)

/-- The memo table only ever gains entries; existing entries are frozen. -/
def Grows (st st' : List (String × Status)) : Prop :=
  ∀ id s, alookup st id = some s → alookup st' id = some s

/-- Recursive restatement of the `.some(...)` fold inside
`findComputeStatusForId`. -/
def findMany (fuel : Nat) (tm : List (String × Int))
    (up : List (String × List String)) :
    List String → List (String × Status) → Option (Bool × List (String × Status))
  | [], st => some (false, st)
  | uid :: rest, st =>
    match findComputeStatusForIdF fuel tm st up uid with
    | Option.none => Option.none
    | some (s, st') =>
      if decide (s ≠ Status.good) then some (true, st')
      else findMany fuel tm up rest st'

/-- The status recursion on graph `g` never returns from `id`, whatever
recursion depth is allowed: the unbounded source recursion diverges. -/
def FindDiverges (g : GraphData) (id : String) : Prop :=
  ∀ fuel,
    findComputeStatusForIdF fuel (timestampsOf g) (preStatuses g)
      (buildUpstream g.downstream) id = Option.none

/-- Fixture for C3: the two-node cycle `a ⇄ b`, both materialized with
equal timestamps, so neither the `none` pre-assignment nor the `old`
short-circuit applies and the recursion chases the cycle. -/
def c3Defs : List AssetDefinition :=
  [defOf ["a"] [("in", ["b"])] [matAt 5], defOf ["b"] [("in", ["a"])] [matAt 5]]

/-- The graph of `c3Defs`. -/
def c3Graph : GraphData := buildGraphData c3Defs

/-- Invariant of `buildGraphData`: well-formed maps, node ids and keys
equal to the stringified asset key, and every downstream target id
registered in the node map (targets are always the declaring definition's
own id). -/
def BuildInv (g : GraphData) : Prop :=
  (objKeys g.nodes).Nodup ∧ (objKeys g.downstream).Nodup ∧
    (∀ p ∈ g.downstream, (objKeys p.2).Nodup) ∧
    (∀ p ∈ g.nodes, p.2.id = p.1 ∧ jsonStringifyPath p.2.assetKey.path = p.1) ∧
    (∀ p ∈ g.downstream, ∀ q ∈ p.2, q.1 ∈ objKeys g.nodes)

/-- Fixture for the C2 and C3-amended witnesses: chain `a → b`, both
materialized, the upstream strictly newer. -/
def c2Defs : List AssetDefinition :=
  [defOf ["a"] [] [matAt 10], defOf ["b"] [("in", ["a"])] [matAt 5]]

/-- The graph of `c2Defs`. -/
def c2Graph : GraphData := buildGraphData c2Defs

/-- Fixture for C6's witness: unmaterialized `a` upstream of `b`. -/
def c6Defs : List AssetDefinition :=
  [defOf ["a"] [] [], defOf ["b"] [("in", ["a"])] [matAt 5]]

/-- The graph of `c6Defs`. -/
def c6Graph : GraphData := buildGraphData c6Defs

/-- Fixture for C7's witness: `d` depends on an upstream asset `ghost`
that no definition declares. -/
def c7Defs : List AssetDefinition := [defOf ["d"] [("in", ["ghost"])] [matAt 5]]

/-- Fixture for C4's counterexample: one definition declaring two
dependencies on the same upstream `u` under different input names. -/
def c4Def : AssetDefinition := defOf ["d"] [("in1", ["u"]), ("in2", ["u"])] []

/-- Parametric C4 fixture: input names `a` then `b`, same upstream `u`,
same downstream `d`. -/
def c4DefWith (a b : String) : AssetDefinition :=
  defOf ["d"] [(a, ["u"]), (b, ["u"])] []

/-- A materialization carrying a known `PipelineRun` record variant. -/
def matRunAt (t : Int) : AssetMaterialization :=
  ⟨⟨some ⟨some t, some t⟩⟩, RunOrError.pipelineRun ⟨"run1", "SUCCESS", "job", "default"⟩⟩

/-! ### Association-list lemmas -/

theorem alookup_upsert {α : Type} (l : List (String × α)) (k key : String) (v : α) :
    alookup (upsert l k v) key = if k = key then some v else alookup l key := by
  induction l with
  | nil => simp [upsert, alookup]
  | cons p t ih =>
    obtain ⟨k', v'⟩ := p
    by_cases hk : k' = k
    · subst hk
      by_cases hkey : k' = key
      · subst hkey
        simp [upsert, alookup]
      · simp only [upsert, if_pos rfl, alookup, if_neg hkey]
    · have hne : k ≠ k' := fun e => hk e.symm
      simp only [upsert, if_neg hk]
      by_cases hkey : k' = key
      · subst hkey
        simp [alookup, hne]
      · simp only [alookup, if_neg hkey]
        exact ih

theorem alookup_upsert_self {α : Type} (l : List (String × α)) (k : String) (v : α) :
    alookup (upsert l k v) k = some v := by
  simp [alookup_upsert]

theorem alookup_upsert_ne {α : Type} (l : List (String × α)) (k key : String) (v : α)
    (h : k ≠ key) : alookup (upsert l k v) key = alookup l key := by
  simp [alookup_upsert, h]

theorem alookup_isSome_iff_mem {α : Type} (l : List (String × α)) (k : String) :
    (alookup l k).isSome ↔ k ∈ objKeys l := by
  induction l with
  | nil => simp [alookup, objKeys]
  | cons p t ih =>
    obtain ⟨k', v'⟩ := p
    by_cases hk : k' = k
    · subst hk
      simp [alookup, objKeys]
    · have hne : k ≠ k' := fun e => hk e.symm
      simp [alookup, objKeys, hk, hne] at ih ⊢
      exact ih

theorem alookup_eq_none_iff {α : Type} (l : List (String × α)) (k : String) :
    alookup l k = Option.none ↔ k ∉ objKeys l := by
  rw [← alookup_isSome_iff_mem, Option.isSome_iff_ne_none]
  simp

theorem alookup_mem {α : Type} {l : List (String × α)} {k : String} {v : α}
    (h : alookup l k = some v) : (k, v) ∈ l := by
  induction l with
  | nil => simp [alookup] at h
  | cons p t ih =>
    obtain ⟨k', v'⟩ := p
    by_cases hk : k' = k
    · subst hk
      simp [alookup] at h
      subst h
      exact List.mem_cons_self _ _
    · simp only [alookup, if_neg hk] at h
      exact List.mem_cons_of_mem _ (ih h)

theorem alookup_of_mem_nodup {α : Type} {l : List (String × α)} {k : String} {v : α}
    (hd : (objKeys l).Nodup) (h : (k, v) ∈ l) : alookup l k = some v := by
  induction l with
  | nil => simp at h
  | cons p t ih =>
    obtain ⟨k', v'⟩ := p
    simp only [objKeys, List.map_cons, List.nodup_cons] at hd
    rcases List.mem_cons.mp h with h1 | h1
    · obtain ⟨h1a, h1b⟩ := Prod.mk.inj h1
      subst h1a
      subst h1b
      simp [alookup]
    · have hk : k' ≠ k := by
        intro e
        subst e
        exact hd.1 (List.mem_map.mpr ⟨(k', v), h1, rfl⟩)
      simp only [alookup, if_neg hk]
      exact ih hd.2 h1

theorem objKeys_upsert {α : Type} (l : List (String × α)) (k : String) (v : α) :
    objKeys (upsert l k v) = if k ∈ objKeys l then objKeys l else objKeys l ++ [k] := by
  induction l with
  | nil => simp [upsert, objKeys]
  | cons p t ih =>
    obtain ⟨k', v'⟩ := p
    by_cases hk : k' = k
    · subst hk
      simp [upsert, objKeys]
    · have hne : k ≠ k' := fun e => hk e.symm
      simp only [upsert, if_neg hk, objKeys, List.map_cons] at ih ⊢
      rw [ih]
      by_cases hmem : k ∈ List.map (fun x => x.1) t <;>
        simp [hmem, hne, List.mem_cons]

theorem objKeys_upsert_nodup {α : Type} {l : List (String × α)} (k : String) (v : α)
    (hd : (objKeys l).Nodup) : (objKeys (upsert l k v)).Nodup := by
  rw [objKeys_upsert]
  split
  · exact hd
  · next hmem =>
    rw [List.nodup_append]
    exact ⟨hd, List.nodup_singleton k,
      fun a ha hb => hmem ((List.mem_singleton.mp hb) ▸ ha)⟩

theorem mem_upsert {α : Type} {l : List (String × α)} {k : String} {v : α}
    {p : String × α} (h : p ∈ upsert l k v) : p ∈ l ∨ p = (k, v) := by
  induction l with
  | nil => simpa [upsert] using h
  | cons q t ih =>
    obtain ⟨k', v'⟩ := q
    by_cases hk : k' = k
    · subst hk
      have h2 : p ∈ (k', v) :: t := by simpa [upsert] using h
      rcases List.mem_cons.mp h2 with h3 | h3
      · exact Or.inr h3
      · exact Or.inl (List.mem_cons_of_mem _ h3)
    · simp only [upsert, if_neg hk, List.mem_cons] at h
      rcases h with h | h
      · exact Or.inl (by simp [h])
      · rcases ih h with h1 | h1
        · exact Or.inl (List.mem_cons_of_mem _ h1)
        · exact Or.inr h1

/-- Extending a chain that ends in `x` by an `R`-successor of `x`. -/
theorem chain'_snoc_snoc {R : String → String → Prop} {l : List String} {x y : String}
    (h : List.Chain' R (l ++ [x])) (hxy : R x y) :
    List.Chain' R ((l ++ [x]) ++ [y]) := by
  rw [List.chain'_append]
  refine ⟨h, List.chain'_singleton y, ?_⟩
  intro a ha b hb
  simp only [List.head?_cons, Option.mem_def, Option.some.injEq] at hb
  rw [List.getLast?_concat, Option.mem_def, Option.some.injEq] at ha
  subst ha
  subst hb
  exact hxy

/-- A chain that runs into a member of its own earlier part yields a
cycle whose members all lie in that earlier part. -/
theorem hasChainCycle_of_mem {R : String → String → Prop} {path : List String} {x : String}
    (hch : List.Chain' R (path ++ [x])) (hx : x ∈ path) :
    ∃ c : List String, c ≠ [] ∧ List.Chain' R (c ++ c.take 1) ∧ ∀ y ∈ c, y ∈ path := by
  obtain ⟨a, b, rfl⟩ := List.append_of_mem hx
  refine ⟨x :: b, by simp, ?_, ?_⟩
  · have he : ((a ++ x :: b) ++ [x]) = a ++ ((x :: b) ++ [x]) := by simp
    rw [he] at hch
    have h2 := (List.chain'_append.mp hch).2.1
    simpa using h2
  · intro y hy
    rcases List.mem_cons.mp hy with rfl | hy
    · exact hx
    · exact List.mem_append.mpr (Or.inr (List.mem_cons_of_mem _ hy))

/-- A cycle for the flipped relation is a cycle for the relation. -/
theorem hasChainCycle_unflip {R : String → String → Prop}
    (h : ∃ c : List String, c ≠ [] ∧ List.Chain' (fun a b => R b a) (c ++ c.take 1)) :
    HasChainCycle R := by
  obtain ⟨c, hne, hch⟩ := h
  obtain ⟨x, t, rfl⟩ := List.exists_cons_of_ne_nil hne
  refine ⟨x :: t.reverse, by simp, ?_⟩
  have h2 : List.Chain' R (List.reverse ((x :: t) ++ [x])) := by
    rw [List.chain'_reverse]
    simpa [flip] using hch
  have h3 : List.reverse ((x :: t) ++ [x]) = (x :: t.reverse) ++ [x] := by simp
  rw [h3] at h2
  simpa using h2

/-- Along a strictly rank-decreasing relation, the last member of a chain
has smaller rank than its head. -/
theorem chain_rank_getLast {R : String → String → Prop} (m : String → Nat)
    (hdec : ∀ a b, R a b → m b < m a) :
    ∀ (l : List String) (x y : String), List.Chain R x l → l.getLast? = some y →
      m y < m x := by
  intro l
  induction l with
  | nil =>
    intro x y _ hy
    simp at hy
  | cons z t ih =>
    intro x y hch hlast
    rcases List.chain_cons.mp hch with ⟨hxz, hch2⟩
    cases t with
    | nil =>
      simp only [List.getLast?_singleton, Option.some.injEq] at hlast
      subst hlast
      exact hdec _ _ hxz
    | cons w t2 =>
      rw [List.getLast?_cons_cons] at hlast
      exact lt_trans (ih z y hch2 hlast) (hdec _ _ hxz)

/-- An edge of the stored adjacency witnessed at the entry level. -/
theorem edgeR_elim {g : GraphData} {a b : String} (hab : edgeR g a b) :
    ∃ inner, alookup g.downstream a = some inner ∧ b ∈ objKeys inner := by
  unfold edgeR downstreamKeysOf at hab
  cases hlk : alookup g.downstream a with
  | none =>
    rw [hlk] at hab
    simp [objKeys] at hab
  | some inner =>
    rw [hlk] at hab
    exact ⟨inner, rfl, by simpa using hab⟩

/-- A strictly decreasing rank over the entries of the stored adjacency
certifies acyclicity.  This is how the concrete witnesses discharge the
(undecidable) `AcyclicGraph` hypotheses. -/
theorem acyclic_of_rank (g : GraphData) (m : String → Nat)
    (h : ∀ p ∈ g.downstream, ∀ q ∈ p.2, m q.1 < m p.1) : AcyclicGraph g := by
  rintro ⟨c, hne, hch⟩
  obtain ⟨x, t, rfl⟩ := List.exists_cons_of_ne_nil hne
  have hch2 : List.Chain (edgeR g) x (t ++ [x]) := by
    have he : ((x :: t) ++ (x :: t).take 1) = x :: (t ++ [x]) := by simp
    rw [he] at hch
    exact hch
  have hdec : ∀ a b, edgeR g a b → m b < m a := by
    intro a b hab
    obtain ⟨inner, hlk, hb⟩ := edgeR_elim hab
    obtain ⟨q, hq, hq1⟩ := List.mem_map.mp hb
    exact hq1 ▸ h _ (alookup_mem hlk) _ hq
  exact lt_irrefl _ (chain_rank_getLast m hdec (t ++ [x]) x x hch2 (List.getLast?_concat _))

/-! ### Cycle detector: characterisation of the short-circuit fold -/

theorem searchFold_none (g : GraphData) (fuel : Nat) (stack2 : List String)
    (l : List String) :
    l.foldl
      (fun acc nextNode =>
        match acc with
        | Option.none => Option.none
        | some (true, ns') => some (true, ns')
        | some (false, ns') => searchF g fuel stack2 nextNode ns')
      Option.none = Option.none := by
  induction l with
  | nil => rfl
  | cons n rest ih => simpa using ih

theorem searchFold_true (g : GraphData) (fuel : Nat) (stack2 : List String)
    (l ns : List String) :
    l.foldl
      (fun acc nextNode =>
        match acc with
        | Option.none => Option.none
        | some (true, ns') => some (true, ns')
        | some (false, ns') => searchF g fuel stack2 nextNode ns')
      (some (true, ns)) = some (true, ns) := by
  induction l with
  | nil => rfl
  | cons n rest ih => simpa using ih

theorem searchFold_eq_searchMany (g : GraphData) (fuel : Nat) (stack2 : List String) :
    ∀ (l ns : List String),
      l.foldl
        (fun acc nextNode =>
          match acc with
          | Option.none => Option.none
          | some (true, ns') => some (true, ns')
          | some (false, ns') => searchF g fuel stack2 nextNode ns')
        (some (false, ns)) = searchMany g fuel stack2 l ns := by
  intro l
  induction l with
  | nil => intro ns; rfl
  | cons n rest ih =>
    intro ns
    rw [List.foldl_cons, searchMany]
    cases hs : searchF g fuel stack2 n ns with
    | none => simpa [hs] using searchFold_none g fuel stack2 rest
    | some r =>
      obtain ⟨b, ns'⟩ := r
      cases b with
      | true => simpa [hs] using searchFold_true g fuel stack2 rest ns'
      | false => simpa [hs] using ih ns'

/-- One-step unfolding of `searchF` at positive fuel, with the neighbour
fold expressed through `searchMany`. -/
theorem searchF_succ (g : GraphData) (fuel : Nat) (stack ns : List String) (node : String) :
    searchF g (fuel + 1) stack node ns =
      if node ∈ stack then some (true, ns)
      else if node ∈ ns then
        searchMany g fuel (stack ++ [node]) (downstreamKeysOf g node) (ns.erase node)
      else some (false, ns) := by
  rw [searchF, searchFold_eq_searchMany]

theorem searchMany_sublist_of (g : GraphData) (fuel : Nat) (stack2 : List String)
    (hP : ∀ stack node ns b ns',
      searchF g fuel stack node ns = some (b, ns') → List.Sublist ns' ns) :
    ∀ l ns b ns', searchMany g fuel stack2 l ns = some (b, ns') → List.Sublist ns' ns := by
  intro l
  induction l with
  | nil =>
    intro ns b ns' h
    simp only [searchMany, Option.some.injEq, Prod.mk.injEq] at h
    exact h.2 ▸ List.Sublist.refl ns
  | cons n rest ih =>
    intro ns b ns' h
    rw [searchMany] at h
    cases hs : searchF g fuel stack2 n ns with
    | none => rw [hs] at h; simp at h
    | some r =>
      obtain ⟨b1, ns1⟩ := r
      rw [hs] at h
      cases b1 with
      | true =>
        simp only [Option.some.injEq, Prod.mk.injEq] at h
        exact h.2 ▸ hP _ _ _ _ _ hs
      | false =>
        exact List.Sublist.trans (ih ns1 b ns' h) (hP _ _ _ _ _ hs)

/-- The unvisited set only ever shrinks (by `Set.delete`) across a
`search` call. -/
theorem searchF_sublist (g : GraphData) :
    ∀ fuel stack node ns b ns',
      searchF g fuel stack node ns = some (b, ns') → List.Sublist ns' ns := by
  intro fuel
  induction fuel with
  | zero =>
    intro stack node ns b ns' h
    simp [searchF] at h
  | succ f ih =>
    intro stack node ns b ns' h
    rw [searchF_succ] at h
    by_cases h1 : node ∈ stack
    · rw [if_pos h1] at h
      simp only [Option.some.injEq, Prod.mk.injEq] at h
      exact h.2 ▸ List.Sublist.refl ns
    · rw [if_neg h1] at h
      by_cases h2 : node ∈ ns
      · rw [if_pos h2] at h
        exact List.Sublist.trans (searchMany_sublist_of g f _ ih _ _ _ _ h)
          (List.erase_sublist node ns)
      · rw [if_neg h2] at h
        simp only [Option.some.injEq, Prod.mk.injEq] at h
        exact h.2 ▸ List.Sublist.refl ns

/-- A top-level `search` call on a member of the unvisited set removes at
least that member. -/
theorem searchF_progress (g : GraphData) (fuel : Nat) (stack ns : List String)
    (node : String) (b : Bool) (ns' : List String)
    (h : searchF g fuel stack node ns = some (b, ns'))
    (hstack : node ∉ stack) (hns : node ∈ ns) : List.Sublist ns' (ns.erase node) := by
  cases fuel with
  | zero => simp [searchF] at h
  | succ f =>
    rw [searchF_succ, if_neg hstack, if_pos hns] at h
    exact searchMany_sublist_of g f _ (searchF_sublist g f) _ _ _ _ h

theorem searchMany_isSome_of (g : GraphData) (fuel : Nat) (stack2 : List String)
    (hP : ∀ stack node ns, ns.length < fuel → (searchF g fuel stack node ns).isSome) :
    ∀ l ns, ns.length < fuel → (searchMany g fuel stack2 l ns).isSome := by
  intro l
  induction l with
  | nil => intro ns _; simp [searchMany]
  | cons n rest ih =>
    intro ns hlen
    rw [searchMany]
    have hS := hP stack2 n ns hlen
    obtain ⟨r, hs⟩ := Option.isSome_iff_exists.mp hS
    obtain ⟨b, ns1⟩ := r
    rw [hs]
    cases b with
    | true => simp
    | false =>
      exact ih ns1 (lt_of_le_of_lt (List.Sublist.length_le
        (searchF_sublist g fuel stack2 n ns false ns1 hs)) hlen)

/-- Fuel `|ns| + 1` is always enough for a `search` call: every recursion
level deletes a node from the set first. -/
theorem searchF_isSome (g : GraphData) :
    ∀ fuel stack node ns, ns.length < fuel → (searchF g fuel stack node ns).isSome := by
  intro fuel
  induction fuel with
  | zero =>
    intro stack node ns h
    exact absurd h (Nat.not_lt_zero _)
  | succ f ih =>
    intro stack node ns hlen
    rw [searchF_succ]
    by_cases h1 : node ∈ stack
    · simp [h1]
    · rw [if_neg h1]
      by_cases h2 : node ∈ ns
      · rw [if_pos h2]
        refine searchMany_isSome_of g f _ ih _ _ ?_
        have h3 : (ns.erase node).length = ns.length - 1 := List.length_erase_of_mem h2
        have h4 : 0 < ns.length := List.length_pos.mpr (List.ne_nil_of_mem h2)
        omega
      · simp [h2]

theorem searchMany_sound_of (g : GraphData) (fuel : Nat) (stack2 : List String)
    (hP : ∀ stack node ns ns',
      List.Chain' (edgeR g) (stack ++ [node]) → (∀ x ∈ stack, x ∈ nodeKeys g) →
      (∀ x ∈ ns, x ∈ nodeKeys g) →
      searchF g fuel stack node ns = some (true, ns') → NodeCycle g) :
    ∀ l ns ns', (∀ n ∈ l, List.Chain' (edgeR g) (stack2 ++ [n])) →
      (∀ x ∈ stack2, x ∈ nodeKeys g) → (∀ x ∈ ns, x ∈ nodeKeys g) →
      searchMany g fuel stack2 l ns = some (true, ns') → NodeCycle g := by
  intro l
  induction l with
  | nil =>
    intro ns ns' _ _ _ h
    simp [searchMany] at h
  | cons n rest ih =>
    intro ns ns' hch hst hns h
    rw [searchMany] at h
    cases hs : searchF g fuel stack2 n ns with
    | none => rw [hs] at h; simp at h
    | some r =>
      obtain ⟨b1, ns1⟩ := r
      rw [hs] at h
      cases b1 with
      | true =>
        exact hP stack2 n ns ns1 (hch n (List.mem_cons_self _ _)) hst hns hs
      | false =>
        refine ih ns1 ns' (fun m hm => hch m (List.mem_cons_of_mem _ hm)) hst ?_ h
        intro x hx
        exact hns x ((searchF_sublist g fuel stack2 n ns false ns1 hs).subset hx)

/-- Soundness of the depth-first search: if it reports a cycle, the graph
really contains a directed cycle running entirely through present nodes.
The `true` verdict arises exactly from revisiting a node of the *current*
recursion path (the `stack.indexOf(node) !== -1` test). -/
theorem searchF_sound (g : GraphData) :
    ∀ fuel stack node ns ns',
      List.Chain' (edgeR g) (stack ++ [node]) → (∀ x ∈ stack, x ∈ nodeKeys g) →
      (∀ x ∈ ns, x ∈ nodeKeys g) →
      searchF g fuel stack node ns = some (true, ns') → NodeCycle g := by
  intro fuel
  induction fuel with
  | zero =>
    intro stack node ns ns' _ _ _ h
    simp [searchF] at h
  | succ f ih =>
    intro stack node ns ns' hch hst hns h
    rw [searchF_succ] at h
    by_cases h1 : node ∈ stack
    · obtain ⟨c, hcne, hcch, hcmem⟩ := hasChainCycle_of_mem hch h1
      exact ⟨c, hcne, hcch, fun y hy => hst y (hcmem y hy)⟩
    · rw [if_neg h1] at h
      by_cases h2 : node ∈ ns
      · rw [if_pos h2] at h
        refine searchMany_sound_of g f (stack ++ [node]) ih _ _ ns' ?_ ?_ ?_ h
        · intro n hn
          exact chain'_snoc_snoc hch hn
        · intro x hx
          rcases List.mem_append.mp hx with hx | hx
          · exact hst x hx
          · rw [List.mem_singleton.mp hx]
            exact hns node h2
        · intro x hx
          exact hns x ((List.erase_sublist node ns).subset hx)
      · rw [if_neg h2] at h
        simp at h

/-- On a graph with no node-level cycle, the `while` loop terminates with
`false`: every iteration removes at least the chosen head node. -/
theorem hasCyclesLoop_false (g : GraphData) (hnc : ¬ NodeCycle g) :
    ∀ fuel ns, (∀ x ∈ ns, x ∈ nodeKeys g) → ns.length < fuel →
      hasCyclesLoop g fuel false ns = some false := by
  intro fuel
  induction fuel with
  | zero =>
    intro ns _ h
    exact absurd h (Nat.not_lt_zero _)
  | succ f ih =>
    intro ns hmem hlen
    cases ns with
    | nil => rfl
    | cons n rest =>
      have hade := searchF_isSome g ((n :: rest).length + 1) [] n (n :: rest)
        (Nat.lt_succ_self _)
      obtain ⟨r, hs⟩ := Option.isSome_iff_exists.mp hade
      obtain ⟨b, ns'⟩ := r
      have hstep : hasCyclesLoop g (f + 1) false (n :: rest) =
          hasCyclesLoop g f b ns' := by
        rw [hasCyclesLoop]
        rw [if_neg Bool.false_ne_true, hs]
      cases b with
      | true =>
        exact absurd
          (searchF_sound g _ [] n (n :: rest) ns' (by simp [List.chain'_singleton])
            (by simp) hmem hs) hnc
      | false =>
        rw [hstep]
        have hsub := searchF_progress g _ [] (n :: rest) n false ns' hs
          (List.not_mem_nil n) (List.mem_cons_self _ _)
        have hlt : ns'.length < (n :: rest).length := by
          have h1 := List.Sublist.length_le hsub
          have h2 : ((n :: rest).erase n).length = (n :: rest).length - 1 :=
            List.length_erase_of_mem (List.mem_cons_self _ _)
          simp only [List.length_cons] at h2 ⊢
          omega
        refine ih ns' ?_ (by omega)
        intro x hx
        exact hmem x ((List.Sublist.trans hsub (List.erase_sublist _ _)).subset hx)

/-- Once `hasCycles` is `true` with nodes still unvisited, the loop spins
forever: `hasCycles || search(...)` short-circuits, so the set never
shrinks and `nodes.size !== 0` stays true. -/
theorem hasCyclesLoop_spin (g : GraphData) :
    ∀ fuel ns, ns ≠ [] → hasCyclesLoop g fuel true ns = Option.none := by
  intro fuel
  induction fuel with
  | zero =>
    intro ns _
    rfl
  | succ f ih =>
    intro ns hne
    obtain ⟨n, rest, rfl⟩ := List.exists_cons_of_ne_nil hne
    rw [hasCyclesLoop]
    simp only [if_pos rfl]
    exact ih (n :: rest) hne

/-! ### Status recursion: generic helpers -/

theorem list_any_congr {α : Type} {l : List α} {f h : α → Bool}
    (he : ∀ x ∈ l, f x = h x) : l.any f = l.any h := by
  induction l with
  | nil => rfl
  | cons x t ih =>
    simp only [List.any_cons]
    rw [he x (List.mem_cons_self _ _), ih (fun y hy => he y (List.mem_cons_of_mem _ hy))]

theorem nodup_key_eq {α : Type} {l : List (String × α)} (hd : (objKeys l).Nodup)
    {p q : String × α} (hp : p ∈ l) (hq : q ∈ l) (h : p.1 = q.1) : p = q := by
  induction l with
  | nil => simp at hp
  | cons r t ih =>
    simp only [objKeys, List.map_cons, List.nodup_cons] at hd
    rcases List.mem_cons.mp hp with rfl | hp2
    · rcases List.mem_cons.mp hq with rfl | hq2
      · rfl
      · exact absurd (List.mem_map.mpr ⟨q, hq2, h.symm⟩) hd.1
    · rcases List.mem_cons.mp hq with rfl | hq2
      · exact absurd (List.mem_map.mpr ⟨p, hp2, h⟩) hd.1
      · exact ih hd.2 hp2 hq2

theorem univ_length_contra (g : GraphData) {path : List String} {id : String}
    (hnd : (path ++ [id]).Nodup) (hu : ∀ x ∈ path ++ [id], x ∈ univIds g)
    (hf : (univIds g).length + 1 ≤ path.length) : False := by
  have h1 : (path ++ [id]).length ≤ (univIds g).length :=
    (List.subperm_of_subset hnd hu).length_le
  simp only [List.length_append, List.length_singleton] at h1
  omega

/-! ### Status recursion: the inverted adjacency -/

theorem mem_buildUpstream_inner_elim (u : String) :
    ∀ (inner : List (String × String)) (acc : List (String × List String))
      (a b : String),
      b ∈ (alookup (inner.foldl
        (fun up2 q => upsert up2 q.1 (((alookup up2 q.1).getD []) ++ [u])) acc) a).getD []
      → b ∈ (alookup acc a).getD [] ∨ (b = u ∧ a ∈ objKeys inner) := by
  intro inner
  induction inner with
  | nil =>
    intro acc a b h
    exact Or.inl h
  | cons q rest ih =>
    intro acc a b h
    rw [List.foldl_cons] at h
    rcases ih _ a b h with h2 | h2
    · by_cases hq : q.1 = a
      · subst hq
        rw [alookup_upsert_self] at h2
        simp only [Option.getD_some] at h2
        rcases List.mem_append.mp h2 with h3 | h3
        · exact Or.inl h3
        · refine Or.inr ⟨List.mem_singleton.mp h3, ?_⟩
          exact List.mem_map.mpr ⟨q, List.mem_cons_self _ _, rfl⟩
      · rw [alookup_upsert_ne _ _ _ _ hq] at h2
        exact Or.inl h2
    · exact Or.inr ⟨h2.1, List.mem_cons_of_mem _ h2.2⟩

theorem mem_buildUpstream_elim :
    ∀ (ds : List (String × List (String × String)))
      (acc : List (String × List String)) (a b : String),
      b ∈ (alookup (ds.foldl
        (fun up p => p.2.foldl
          (fun up2 q => upsert up2 q.1 (((alookup up2 q.1).getD []) ++ [p.1])) up) acc) a).getD []
      → b ∈ (alookup acc a).getD [] ∨ ∃ inner, (b, inner) ∈ ds ∧ a ∈ objKeys inner := by
  intro ds
  induction ds with
  | nil =>
    intro acc a b h
    exact Or.inl h
  | cons p rest ih =>
    intro acc a b h
    rw [List.foldl_cons] at h
    rcases ih _ a b h with h2 | h2
    · rcases mem_buildUpstream_inner_elim p.1 p.2 acc a b h2 with h3 | h3
      · exact Or.inl h3
      · exact Or.inr ⟨p.2, by rw [h3.1]; exact List.mem_cons_self _ _, h3.2⟩
    · obtain ⟨inner, hmem, ha⟩ := h2
      exact Or.inr ⟨inner, List.mem_cons_of_mem _ hmem, ha⟩

theorem upE_elim {g : GraphData} {a b : String} (h : upE g a b) :
    ∃ inner, (b, inner) ∈ g.downstream ∧ a ∈ objKeys inner := by
  unfold upE buildUpstream at h
  rcases mem_buildUpstream_elim g.downstream [] a b h with h2 | h2
  · simp [alookup] at h2
  · exact h2

theorem upE_to_edgeR {g : GraphData} (hWFd : (objKeys g.downstream).Nodup)
    {a b : String} (h : upE g a b) : edgeR g b a := by
  obtain ⟨inner, hmem, ha⟩ := upE_elim h
  unfold edgeR downstreamKeysOf
  rw [alookup_of_mem_nodup hWFd hmem]
  simpa using ha

theorem no_upE_cycle {g : GraphData} (hWFd : (objKeys g.downstream).Nodup)
    (hA : AcyclicGraph g) : ¬ HasChainCycle (upE g) := by
  rintro ⟨c, hne, hch⟩
  exact hA (hasChainCycle_unflip
    ⟨c, hne, hch.imp (fun a b h => upE_to_edgeR hWFd h)⟩)

theorem upE_path_extend {g : GraphData} (hWFd : (objKeys g.downstream).Nodup)
    (hA : AcyclicGraph g) {path : List String} {id uid : String}
    (hch : List.Chain' (upE g) (path ++ [id])) (hupE : upE g id uid) :
    uid ∉ path ++ [id] := by
  intro hmem
  have hch2 : List.Chain' (upE g) ((path ++ [id]) ++ [uid]) := chain'_snoc_snoc hch hupE
  obtain ⟨c, hcne, hcch, _⟩ := hasChainCycle_of_mem hch2 hmem
  exact no_upE_cycle hWFd hA ⟨c, hcne, hcch⟩

theorem upE_mem_univ {g : GraphData} {a b : String} (h : upE g a b) :
    b ∈ univIds g := by
  unfold upE at h
  cases hlk : alookup (buildUpstream g.downstream) a with
  | none =>
    rw [hlk] at h
    simp at h
  | some l =>
    rw [hlk] at h
    simp only [Option.getD_some] at h
    have h1 : l ∈ (buildUpstream g.downstream).map (·.2) :=
      List.mem_map.mpr ⟨(a, l), alookup_mem hlk, rfl⟩
    unfold univIds
    refine List.mem_append.mpr (Or.inl (List.mem_append.mpr (Or.inr ?_)))
    exact List.mem_flatten.mpr ⟨l, h1, h⟩

theorem mem_upstreamIdsOf_upE {g : GraphData} {id uid : String}
    (h : uid ∈ upstreamIdsOf g id) : upE g id uid := h

theorem nodup_snoc {l : List String} {x : String} (hnd : l.Nodup) (hx : x ∉ l) :
    (l ++ [x]).Nodup := by
  rw [List.nodup_append]
  exact ⟨hnd, List.nodup_singleton x,
    fun a ha hb => hx ((List.mem_singleton.mp hb) ▸ ha)⟩

theorem specStatusF_succ (g : GraphData) (fuel : Nat) (id : String) :
    specStatusF g (fuel + 1) id =
      if preNoneB g id then Status.none
      else if oldCondB g id then Status.old
      else if (upstreamIdsOf g id).any
          (fun uid => decide (specStatusF g fuel uid ≠ Status.good)) then
        Status.downstreamFromOld
      else Status.good := rfl

/-- On an acyclic graph the fuel-indexed reference status is independent
of the fuel, once the fuel leaves room for the longest possible upstream
chain extending the current path. -/
theorem specStatusF_stable (g : GraphData) (hWFd : (objKeys g.downstream).Nodup)
    (hA : AcyclicGraph g) :
    ∀ f1 f2 (path : List String) (id : String),
      List.Chain' (upE g) (path ++ [id]) → (path ++ [id]).Nodup →
      (∀ x ∈ path ++ [id], x ∈ univIds g) →
      (univIds g).length + 1 ≤ f1 + path.length →
      (univIds g).length + 1 ≤ f2 + path.length →
      specStatusF g f1 id = specStatusF g f2 id := by
  intro f1
  induction f1 with
  | zero =>
    intro f2 path id hch hnd hu hf1 hf2
    exact (univ_length_contra g hnd hu (by omega)).elim
  | succ f ih =>
    intro f2 path id hch hnd hu hf1 hf2
    cases f2 with
    | zero => exact (univ_length_contra g hnd hu (by omega)).elim
    | succ f2' =>
      rw [specStatusF_succ, specStatusF_succ]
      have hany : (upstreamIdsOf g id).any
            (fun uid => decide (specStatusF g f uid ≠ Status.good))
          = (upstreamIdsOf g id).any
            (fun uid => decide (specStatusF g f2' uid ≠ Status.good)) := by
        apply list_any_congr
        intro uid huid
        have hupE : upE g id uid := mem_upstreamIdsOf_upE huid
        have hch2 : List.Chain' (upE g) ((path ++ [id]) ++ [uid]) :=
          chain'_snoc_snoc hch hupE
        have hnotin : uid ∉ path ++ [id] := upE_path_extend hWFd hA hch hupE
        have heq := ih f2' (path ++ [id]) uid hch2 (nodup_snoc hnd hnotin)
          (by
            intro x hx
            rcases List.mem_append.mp hx with h | h
            · exact hu x h
            · rw [List.mem_singleton.mp h]
              exact upE_mem_univ hupE)
          (by simp only [List.length_append, List.length_singleton]; omega)
          (by simp only [List.length_append, List.length_singleton]; omega)
        rw [heq]
      rw [hany]

/-- Fixpoint unfolding of the reference status on acyclic graphs. -/
theorem specStatus_unfold (g : GraphData) (hWFd : (objKeys g.downstream).Nodup)
    (hA : AcyclicGraph g) (id : String) (hid : id ∈ univIds g) :
    specStatus g id =
      if preNoneB g id then Status.none
      else if oldCondB g id then Status.old
      else if (upstreamIdsOf g id).any
          (fun uid => decide (specStatus g uid ≠ Status.good)) then
        Status.downstreamFromOld
      else Status.good := by
  unfold specStatus
  rw [specStatusF_succ]
  have hany : (upstreamIdsOf g id).any
        (fun uid => decide (specStatusF g ((univIds g).length) uid ≠ Status.good))
      = (upstreamIdsOf g id).any
        (fun uid => decide (specStatusF g ((univIds g).length + 1) uid ≠ Status.good)) := by
    apply list_any_congr
    intro uid huid
    have hupE : upE g id uid := mem_upstreamIdsOf_upE huid
    have hch0 : List.Chain' (upE g) (([] : List String) ++ [id]) :=
      List.chain'_singleton id
    have hch : List.Chain' (upE g) (([id] : List String) ++ [uid]) :=
      chain'_snoc_snoc hch0 hupE
    have hnotin : uid ∉ ([] : List String) ++ [id] := upE_path_extend hWFd hA hch0 hupE
    have hnd : (([id] : List String) ++ [uid]).Nodup :=
      nodup_snoc (List.nodup_singleton id) hnotin
    have hu : ∀ x ∈ ([id] : List String) ++ [uid], x ∈ univIds g := by
      intro x hx
      rcases List.mem_append.mp hx with h | h
      · rw [List.mem_singleton.mp h]
        exact hid
      · rw [List.mem_singleton.mp h]
        exact upE_mem_univ hupE
    have heq := specStatusF_stable g hWFd hA ((univIds g).length)
      ((univIds g).length + 1) [id] uid hch hnd hu
      (by simp) (by simp)
    rw [heq]
  rw [hany]

/-! ### Status recursion: fold characterisation and invariant helpers -/

theorem findFold_none (fuel : Nat) (tm : List (String × Int))
    (up : List (String × List String)) (l : List String) :
    l.foldl
      (fun acc uid =>
        match acc with
        | Option.none => Option.none
        | some (true, st) => some (true, st)
        | some (false, st) =>
          match findComputeStatusForIdF fuel tm st up uid with
          | Option.none => Option.none
          | some (s, st') => some (decide (s ≠ Status.good), st'))
      Option.none = Option.none := by
  induction l with
  | nil => rfl
  | cons n rest ih => simpa using ih

theorem findFold_true (fuel : Nat) (tm : List (String × Int))
    (up : List (String × List String)) (l : List String)
    (st : List (String × Status)) :
    l.foldl
      (fun acc uid =>
        match acc with
        | Option.none => Option.none
        | some (true, st) => some (true, st)
        | some (false, st) =>
          match findComputeStatusForIdF fuel tm st up uid with
          | Option.none => Option.none
          | some (s, st') => some (decide (s ≠ Status.good), st'))
      (some (true, st)) = some (true, st) := by
  induction l with
  | nil => rfl
  | cons n rest ih => simpa using ih

theorem findFold_eq_findMany (fuel : Nat) (tm : List (String × Int))
    (up : List (String × List String)) :
    ∀ (l : List String) (st : List (String × Status)),
      l.foldl
        (fun acc uid =>
          match acc with
          | Option.none => Option.none
          | some (true, st) => some (true, st)
          | some (false, st) =>
            match findComputeStatusForIdF fuel tm st up uid with
            | Option.none => Option.none
            | some (s, st') => some (decide (s ≠ Status.good), st'))
        (some (false, st)) = findMany fuel tm up l st := by
  intro l
  induction l with
  | nil => intro st; rfl
  | cons uid rest ih =>
    intro st
    rw [List.foldl_cons, findMany]
    cases hs : findComputeStatusForIdF fuel tm st up uid with
    | none => simpa [hs] using findFold_none fuel tm up rest
    | some r =>
      obtain ⟨s, st'⟩ := r
      cases hd : decide (s ≠ Status.good) with
      | true => simpa [hs, hd] using findFold_true fuel tm up rest st'
      | false => simpa [hs, hd] using ih st'

/-- One-step unfolding of `findComputeStatusForId` at positive fuel, with
the upstream fold expressed through `findMany`. -/
theorem findF_succ (fuel : Nat) (tm : List (String × Int))
    (st : List (String × Status)) (up : List (String × List String)) (id : String) :
    findComputeStatusForIdF (fuel + 1) tm st up id =
      match alookup st id with
      | some s => some (s, st)
      | Option.none =>
        if ((alookup up id).getD []).any
            (fun uid => jsGt (alookup tm uid) (alookup tm id)) then
          some (Status.old, upsert st id Status.old)
        else
          match findMany fuel tm up ((alookup up id).getD []) st with
          | Option.none => Option.none
          | some (found, st') =>
            some (if found then Status.downstreamFromOld else Status.good,
              upsert st' id (if found then Status.downstreamFromOld else Status.good)) := by
  rw [findComputeStatusForIdF, findFold_eq_findMany]

theorem grows_refl (st : List (String × Status)) : Grows st st := fun _ _ h => h

theorem grows_trans {st1 st2 st3 : List (String × Status)}
    (h1 : Grows st1 st2) (h2 : Grows st2 st3) : Grows st1 st3 :=
  fun id s h => h2 id s (h1 id s h)

theorem grows_upsert_memo {g : GraphData} {st : List (String × Status)}
    (hM : MemoInv g st) (id : String) {v : Status} (hv : v = specStatus g id) :
    Grows st (upsert st id v) := by
  intro k s hk
  by_cases h : id = k
  · subst h
    rw [alookup_upsert_self, hv, ← hM id s hk]
  · rw [alookup_upsert_ne _ _ _ _ h]
    exact hk

theorem memoInv_upsert {g : GraphData} {st : List (String × Status)}
    (hM : MemoInv g st) (id : String) {v : Status} (hv : v = specStatus g id) :
    MemoInv g (upsert st id v) := by
  intro k s hk
  by_cases h : id = k
  · subst h
    rw [alookup_upsert_self] at hk
    rw [← Option.some.inj hk, hv]
  · rw [alookup_upsert_ne _ _ _ _ h] at hk
    exact hM k s hk

theorem preDomInv_upsert {g : GraphData} {st : List (String × Status)}
    (hP : PreDomInv g st) (id : String) (v : Status) :
    PreDomInv g (upsert st id v) := by
  intro k hk
  by_cases h : id = k
  · subst h
    simp [alookup_upsert_self]
  · rw [alookup_upsert_ne _ _ _ _ h]
    exact hP k hk

theorem suppInv_upsert {g : GraphData} {st : List (String × Status)}
    (hS : SuppInv g st) (id : String) (v : Status)
    (hgood : v = Status.good →
      ∀ uid ∈ upstreamIdsOf g id, (alookup (upsert st id v) uid).isSome)
    (hdfo : v = Status.downstreamFromOld →
      ∃ uid ∈ upstreamIdsOf g id, (alookup (upsert st id v) uid).isSome ∧
        specStatus g uid ≠ Status.good) :
    SuppInv g (upsert st id v) := by
  intro k
  by_cases h : id = k
  · subst h
    constructor
    · intro hk
      rw [alookup_upsert_self] at hk
      exact hgood (Option.some.inj hk)
    · intro hk
      rw [alookup_upsert_self] at hk
      exact hdfo (Option.some.inj hk)
  · have hlk : alookup (upsert st id v) k = alookup st k := alookup_upsert_ne _ _ _ _ h
    constructor
    · intro hk
      rw [hlk] at hk
      intro uid huid
      have h2 := (hS k).1 hk uid huid
      by_cases hu : id = uid
      · subst hu
        simp [alookup_upsert_self]
      · rw [alookup_upsert_ne _ _ _ _ hu]
        exact h2
    · intro hk
      rw [hlk] at hk
      obtain ⟨uid, huid, hsome, hspec⟩ := (hS k).2 hk
      refine ⟨uid, huid, ?_, hspec⟩
      by_cases hu : id = uid
      · subst hu
        simp [alookup_upsert_self]
      · rw [alookup_upsert_ne _ _ _ _ hu]
        exact hsome

theorem alookup_upsert_noop {st : List (String × Status)} {id : String} {v : Status}
    (h : alookup st id = some v) :
    ∀ k, alookup (upsert st id v) k = alookup st k := by
  intro k
  by_cases hk : id = k
  · subst hk
    rw [alookup_upsert_self, h]
  · exact alookup_upsert_ne _ _ _ _ hk

theorem memoInv_ext {g : GraphData} {st st' : List (String × Status)}
    (he : ∀ k, alookup st' k = alookup st k) (hM : MemoInv g st) : MemoInv g st' :=
  fun id s h => hM id s (by rw [← he id]; exact h)

theorem preDomInv_ext {g : GraphData} {st st' : List (String × Status)}
    (he : ∀ k, alookup st' k = alookup st k) (hP : PreDomInv g st) : PreDomInv g st' :=
  fun id h => by rw [he id]; exact hP id h

theorem suppInv_ext {g : GraphData} {st st' : List (String × Status)}
    (he : ∀ k, alookup st' k = alookup st k) (hS : SuppInv g st) : SuppInv g st' := by
  intro id
  constructor
  · intro hk uid huid
    rw [he uid]
    exact (hS id).1 (by rw [← he id]; exact hk) uid huid
  · intro hk
    obtain ⟨uid, huid, hsome, hspec⟩ := (hS id).2 (by rw [← he id]; exact hk)
    exact ⟨uid, huid, by rw [he uid]; exact hsome, hspec⟩

theorem grows_ext {st st' : List (String × Status)}
    (he : ∀ k, alookup st' k = alookup st k) : Grows st st' :=
  fun id s h => by rw [he id]; exact h

/-! ### Status recursion: the pre-assignment loop -/

theorem preStatuses_fold_lookup (g : GraphData) :
    ∀ (l : List (String × Node)) (acc : List (String × Status)),
      (∀ p ∈ l, p ∈ g.nodes) →
      (∀ id s, alookup acc id = some s → s = Status.none ∧ preNoneB g id = true) →
      ∀ id s,
        alookup (l.foldl (fun st p =>
          if p.2.definition.assetMaterializations.length = 0 then
            upsert st p.2.id Status.none
          else st) acc) id = some s →
        s = Status.none ∧ preNoneB g id = true := by
  intro l
  induction l with
  | nil =>
    intro acc _ hacc
    exact hacc
  | cons p rest ih =>
    intro acc hmem hacc id s h
    rw [List.foldl_cons] at h
    refine ih _ (fun q hq => hmem q (List.mem_cons_of_mem _ hq)) ?_ id s h
    intro id2 s2 h2
    by_cases hc : p.2.definition.assetMaterializations.length = 0
    · rw [if_pos hc] at h2
      by_cases hk : p.2.id = id2
      · rw [← hk, alookup_upsert_self] at h2
        refine ⟨(Option.some.inj h2).symm, ?_⟩
        have hemp : p.2.definition.assetMaterializations = [] := List.length_eq_zero.mp hc
        refine List.any_eq_true.mpr ⟨p, hmem p (List.mem_cons_self _ _), ?_⟩
        simp [hk, hemp]
      · rw [alookup_upsert_ne _ _ _ _ hk] at h2
        exact hacc _ _ h2
    · rw [if_neg hc] at h2
      exact hacc _ _ h2

theorem preStatuses_lookup (g : GraphData) :
    ∀ id s, alookup (preStatuses g) id = some s →
      s = Status.none ∧ preNoneB g id = true :=
  preStatuses_fold_lookup g g.nodes [] (fun _ hp => hp)
    (by intro id s h; simp [alookup] at h)

theorem preStep_isSome_mono (g : GraphData) :
    ∀ (l : List (String × Node)) (acc : List (String × Status)) (id : String),
      (alookup acc id).isSome →
      (alookup (l.foldl (fun st p =>
        if p.2.definition.assetMaterializations.length = 0 then
          upsert st p.2.id Status.none
        else st) acc) id).isSome := by
  intro l
  induction l with
  | nil =>
    intro acc id h
    exact h
  | cons p rest ih =>
    intro acc id h
    rw [List.foldl_cons]
    refine ih _ id ?_
    by_cases hc : p.2.definition.assetMaterializations.length = 0
    · rw [if_pos hc]
      by_cases hk : p.2.id = id
      · rw [← hk, alookup_upsert_self]
        rfl
      · rw [alookup_upsert_ne _ _ _ _ hk]
        exact h
    · rw [if_neg hc]
      exact h

theorem preStatuses_fold_isSome (g : GraphData) :
    ∀ (l : List (String × Node)) (acc : List (String × Status)),
      ∀ p ∈ l, p.2.definition.assetMaterializations.isEmpty = true →
        (alookup (l.foldl (fun st q =>
          if q.2.definition.assetMaterializations.length = 0 then
            upsert st q.2.id Status.none
          else st) acc) p.2.id).isSome := by
  intro l
  induction l with
  | nil =>
    intro acc p hp
    simp at hp
  | cons q rest ih =>
    intro acc p hp hemp
    rcases List.mem_cons.mp hp with rfl | hp2
    · rw [List.foldl_cons]
      have hc : p.2.definition.assetMaterializations.length = 0 := by
        rw [List.isEmpty_iff] at hemp
        simp [hemp]
      refine preStep_isSome_mono g rest _ _ ?_
      rw [if_pos hc, alookup_upsert_self]
      rfl
    · rw [List.foldl_cons]
      exact ih _ p hp2 hemp

theorem preStatuses_preDom (g : GraphData) : PreDomInv g (preStatuses g) := by
  intro id hpre
  obtain ⟨p, hp, hcond⟩ := List.any_eq_true.mp hpre
  rw [Bool.and_eq_true, decide_eq_true_eq] at hcond
  rw [← hcond.1]
  exact preStatuses_fold_isSome g g.nodes [] p hp hcond.2

theorem preStatuses_memo (g : GraphData) : MemoInv g (preStatuses g) := by
  intro id s h
  obtain ⟨hs, hpre⟩ := preStatuses_lookup g id s h
  rw [hs]
  unfold specStatus
  rw [specStatusF_succ, if_pos hpre]

theorem preStatuses_supp (g : GraphData) : SuppInv g (preStatuses g) := by
  intro id
  constructor
  · intro h
    exact absurd (preStatuses_lookup g id _ h).1 (by decide)
  · intro h
    exact absurd (preStatuses_lookup g id _ h).1 (by decide)

/-! ### Status recursion: main correctness and termination lemma -/

theorem upstreamIdsOf_def (g : GraphData) (id : String) :
    (alookup (buildUpstream g.downstream) id).getD [] = upstreamIdsOf g id := rfl

theorem findMany_correct (g : GraphData) (hWFd : (objKeys g.downstream).Nodup)
    (hA : AcyclicGraph g) (fuel : Nat)
    (hP : ∀ path id st,
      List.Chain' (upE g) (path ++ [id]) → (path ++ [id]).Nodup →
      (∀ x ∈ path ++ [id], x ∈ univIds g) →
      (univIds g).length + 1 ≤ fuel + path.length →
      MemoInv g st → PreDomInv g st → SuppInv g st →
      ∃ st', findComputeStatusForIdF fuel (timestampsOf g) st
            (buildUpstream g.downstream) id = some (specStatus g id, st') ∧
        Grows st st' ∧ alookup st' id = some (specStatus g id) ∧
        MemoInv g st' ∧ PreDomInv g st' ∧ SuppInv g st')
    (path : List String) (id : String)
    (hch : List.Chain' (upE g) (path ++ [id])) (hnd : (path ++ [id]).Nodup)
    (hu : ∀ x ∈ path ++ [id], x ∈ univIds g)
    (hfuel : (univIds g).length + 1 ≤ fuel + (path ++ [id]).length) :
    ∀ (l : List String) (st : List (String × Status)),
      (∀ uid ∈ l, upE g id uid) →
      MemoInv g st → PreDomInv g st → SuppInv g st →
      ∃ b st', findMany fuel (timestampsOf g) (buildUpstream g.downstream) l st
          = some (b, st') ∧
        b = l.any (fun uid => decide (specStatus g uid ≠ Status.good)) ∧
        Grows st st' ∧ MemoInv g st' ∧ PreDomInv g st' ∧ SuppInv g st' ∧
        (b = false → ∀ uid ∈ l, alookup st' uid = some (specStatus g uid)) ∧
        (b = true → ∃ uid ∈ l, alookup st' uid = some (specStatus g uid) ∧
          specStatus g uid ≠ Status.good) := by
  intro l
  induction l with
  | nil =>
    intro st _ hM hPd hS
    refine ⟨false, st, rfl, by simp, grows_refl st, hM, hPd, hS, ?_, by simp⟩
    intro _ uid h
    simp at h
  | cons uid rest ih =>
    intro st hups hM hPd hS
    have hupE : upE g id uid := hups uid (List.mem_cons_self _ _)
    have hch2 : List.Chain' (upE g) ((path ++ [id]) ++ [uid]) :=
      chain'_snoc_snoc hch hupE
    have hnotin : uid ∉ path ++ [id] := upE_path_extend hWFd hA hch hupE
    have hnd2 : ((path ++ [id]) ++ [uid]).Nodup := nodup_snoc hnd hnotin
    have hu2 : ∀ x ∈ (path ++ [id]) ++ [uid], x ∈ univIds g := by
      intro x hx
      rcases List.mem_append.mp hx with h | h
      · exact hu x h
      · rw [List.mem_singleton.mp h]
        exact upE_mem_univ hupE
    obtain ⟨st1, hfind, hgrow1, hself1, hM1, hPd1, hS1⟩ :=
      hP (path ++ [id]) uid st hch2 hnd2 hu2
        (by simp only [List.length_append, List.length_singleton] at hfuel ⊢; omega)
        hM hPd hS
    have hstep : findMany fuel (timestampsOf g) (buildUpstream g.downstream)
        (uid :: rest) st =
        if decide (specStatus g uid ≠ Status.good) then some (true, st1)
        else findMany fuel (timestampsOf g) (buildUpstream g.downstream) rest st1 := by
      rw [findMany, hfind]
    cases hgd : decide (specStatus g uid ≠ Status.good) with
    | true =>
      refine ⟨true, st1, ?_, ?_, hgrow1, hM1, hPd1, hS1, by simp, ?_⟩
      · rw [hstep, hgd]
        rfl
      · simp only [List.any_cons, hgd, Bool.true_or]
      · intro _
        exact ⟨uid, List.mem_cons_self _ _, hself1, of_decide_eq_true hgd⟩
    | false =>
      obtain ⟨b, st', hrec, hb, hgrow2, hM2, hPd2, hS2, hfalse, htrue⟩ :=
        ih st1 (fun u hu' => hups u (List.mem_cons_of_mem _ hu')) hM1 hPd1 hS1
      refine ⟨b, st', ?_, ?_, grows_trans hgrow1 hgrow2, hM2, hPd2, hS2, ?_, ?_⟩
      · rw [hstep, hgd]
        simpa using hrec
      · simp only [List.any_cons, hgd, Bool.false_or]
        exact hb
      · intro hbf uid2 hu2'
        rcases List.mem_cons.mp hu2' with rfl | h
        · exact hgrow2 _ _ hself1
        · exact hfalse hbf uid2 h
      · intro hbt
        obtain ⟨u3, hu3, hl3, hs3⟩ := htrue hbt
        exact ⟨u3, List.mem_cons_of_mem _ hu3, hl3, hs3⟩

theorem findF_correct (g : GraphData) (hWFd : (objKeys g.downstream).Nodup)
    (hA : AcyclicGraph g) :
    ∀ fuel (path : List String) (id : String) (st : List (String × Status)),
      List.Chain' (upE g) (path ++ [id]) → (path ++ [id]).Nodup →
      (∀ x ∈ path ++ [id], x ∈ univIds g) →
      (univIds g).length + 1 ≤ fuel + path.length →
      MemoInv g st → PreDomInv g st → SuppInv g st →
      ∃ st', findComputeStatusForIdF fuel (timestampsOf g) st
            (buildUpstream g.downstream) id = some (specStatus g id, st') ∧
        Grows st st' ∧ alookup st' id = some (specStatus g id) ∧
        MemoInv g st' ∧ PreDomInv g st' ∧ SuppInv g st' := by
  intro fuel
  induction fuel with
  | zero =>
    intro path id st hch hnd hu hfuel hM hPd hS
    exact (univ_length_contra g hnd hu (by omega)).elim
  | succ f ih =>
    intro path id st hch hnd hu hfuel hM hPd hS
    cases hlk : alookup st id with
    | some s =>
      have hs : s = specStatus g id := hM id s hlk
      subst hs
      have hstep : findComputeStatusForIdF (f + 1) (timestampsOf g) st
          (buildUpstream g.downstream) id = some (specStatus g id, st) := by
        rw [findF_succ, hlk]
      exact ⟨st, hstep, grows_refl st, hlk, hM, hPd, hS⟩
    | none =>
      have hnpre : preNoneB g id = false := by
        cases hpre : preNoneB g id
        · rfl
        · have h2 := hPd id hpre
          rw [hlk] at h2
          simp at h2
      have hid_univ : id ∈ univIds g := hu id (by simp)
      have hunf := specStatus_unfold g hWFd hA id hid_univ
      rw [hnpre] at hunf
      simp only [Bool.false_eq_true, if_false] at hunf
      have hcond : ((alookup (buildUpstream g.downstream) id).getD []).any
          (fun uid => jsGt (alookup (timestampsOf g) uid)
            (alookup (timestampsOf g) id)) = oldCondB g id := rfl
      cases hold : oldCondB g id with
      | true =>
        rw [hold, if_pos rfl] at hunf
        have hstep : findComputeStatusForIdF (f + 1) (timestampsOf g) st
            (buildUpstream g.downstream) id =
            some (Status.old, upsert st id Status.old) := by
          rw [findF_succ, hlk, hcond, hold]
          rfl
        refine ⟨upsert st id Status.old, ?_, grows_upsert_memo hM id hunf.symm, ?_,
          memoInv_upsert hM id hunf.symm, preDomInv_upsert hPd id _, ?_⟩
        · rw [hstep, ← hunf]
        · rw [alookup_upsert_self, ← hunf]
        · refine suppInv_upsert hS id Status.old ?_ ?_
          · intro h
            exact absurd h (by decide)
          · intro h
            exact absurd h (by decide)
      | false =>
        rw [hold] at hunf
        simp only [Bool.false_eq_true, if_false] at hunf
        obtain ⟨b, st1, hrec, hb, hgrow1, hM1, hPd1, hS1, hfalse, htrue⟩ :=
          findMany_correct g hWFd hA f ih path id hch hnd hu
            (by simp only [List.length_append, List.length_singleton]; omega)
            (upstreamIdsOf g id) st (fun uid h => mem_upstreamIdsOf_upE h) hM hPd hS
        have hveq : (if b then Status.downstreamFromOld else Status.good)
            = specStatus g id := by
          rw [hunf, hb]
        have hstep : findComputeStatusForIdF (f + 1) (timestampsOf g) st
            (buildUpstream g.downstream) id =
            match findMany f (timestampsOf g) (buildUpstream g.downstream)
                (upstreamIdsOf g id) st with
            | Option.none => Option.none
            | some (found, st2) =>
              some (if found then Status.downstreamFromOld else Status.good,
                upsert st2 id
                  (if found then Status.downstreamFromOld else Status.good)) := by
          rw [findF_succ, hlk, hcond, hold]
          rfl
        rw [hrec] at hstep
        have hstep2 : findComputeStatusForIdF (f + 1) (timestampsOf g) st
            (buildUpstream g.downstream) id =
            some (if b then Status.downstreamFromOld else Status.good,
              upsert st1 id
                (if b then Status.downstreamFromOld else Status.good)) := hstep
        refine ⟨upsert st1 id (if b then Status.downstreamFromOld else Status.good),
          ?_, grows_trans hgrow1 (grows_upsert_memo hM1 id hveq), ?_,
          memoInv_upsert hM1 id hveq, preDomInv_upsert hPd1 id _, ?_⟩
        · rw [hstep2, hveq]
        · rw [alookup_upsert_self, hveq]
        · refine suppInv_upsert hS1 id _ ?_ ?_
          · intro hv
            have hbf : b = false := by
              cases b
              · rfl
              · simp at hv
            intro uid huid
            have hl := hfalse hbf uid huid
            by_cases hid2 : id = uid
            · subst hid2
              simp [alookup_upsert_self]
            · rw [alookup_upsert_ne _ _ _ _ hid2, hl]
              rfl
          · intro hv
            have hbt : b = true := by
              cases b
              · simp at hv
              · rfl
            obtain ⟨u3, hu3, hl3, hs3⟩ := htrue hbt
            refine ⟨u3, hu3, ?_, hs3⟩
            by_cases hid2 : id = u3
            · subst hid2
              simp [alookup_upsert_self]
            · rw [alookup_upsert_ne _ _ _ _ hid2, hl3]
              rfl

/-! ### Status computation: the main loop -/

theorem nodeKey_mem_univ (g : GraphData) {p : String × Node} (hp : p ∈ g.nodes) :
    p.1 ∈ univIds g := by
  unfold univIds nodeKeys objKeys
  exact List.mem_append.mpr (Or.inl (List.mem_append.mpr (Or.inl
    (List.mem_append.mpr (Or.inl (List.mem_map.mpr ⟨p, hp, rfl⟩))))))

theorem statusLoop_correct (g : GraphData) (hWFd : (objKeys g.downstream).Nodup)
    (hA : AcyclicGraph g) :
    ∀ (rest : List (String × Node)) (st : List (String × Status)),
      (∀ p ∈ rest, p ∈ g.nodes) →
      MemoInv g st → PreDomInv g st → SuppInv g st →
      ∃ st', statusLoop g (timestampsOf g) (buildUpstream g.downstream) rest st
          = some st' ∧
        Grows st st' ∧ MemoInv g st' ∧ PreDomInv g st' ∧ SuppInv g st' ∧
        ∀ p ∈ rest, alookup st' (jsonStringifyPath p.2.assetKey.path)
          = some (specStatus g (jsonStringifyPath p.2.assetKey.path)) := by
  intro rest
  induction rest with
  | nil =>
    intro st _ hM hPd hS
    exact ⟨st, rfl, grows_refl st, hM, hPd, hS, by simp⟩
  | cons p rest2 ih =>
    intro st hmem hM hPd hS
    have hpmem : p ∈ g.nodes := hmem p (List.mem_cons_self _ _)
    have hid_univ : jsonStringifyPath p.2.assetKey.path ∈ univIds g := by
      unfold univIds
      exact List.mem_append.mpr (Or.inr (List.mem_map.mpr ⟨p, hpmem, rfl⟩))
    obtain ⟨st1, hfind, hgrow1, hself1, hM1, hPd1, hS1⟩ :=
      findF_correct g hWFd hA (statusFuel g) []
        (jsonStringifyPath p.2.assetKey.path) st
        (List.chain'_singleton _) (List.nodup_singleton _)
        (by
          intro x hx
          rw [List.mem_singleton.mp hx]
          exact hid_univ)
        (by unfold statusFuel; omega)
        hM hPd hS
    have hnoop := alookup_upsert_noop hself1
    have hstep : statusLoop g (timestampsOf g) (buildUpstream g.downstream)
        (p :: rest2) st
        = statusLoop g (timestampsOf g) (buildUpstream g.downstream) rest2
            (upsert st1 (jsonStringifyPath p.2.assetKey.path)
              (specStatus g (jsonStringifyPath p.2.assetKey.path))) := by
      rw [statusLoop, hfind]
    obtain ⟨st', hrec, hgrow2, hM2, hPd2, hS2, hall⟩ :=
      ih _ (fun q hq => hmem q (List.mem_cons_of_mem _ hq))
        (memoInv_ext hnoop hM1) (preDomInv_ext hnoop hPd1) (suppInv_ext hnoop hS1)
    refine ⟨st', by rw [hstep]; exact hrec,
      grows_trans hgrow1 (grows_trans (grows_ext hnoop) hgrow2), hM2, hPd2, hS2, ?_⟩
    intro q hq
    rcases List.mem_cons.mp hq with rfl | hq2
    · refine hgrow2 _ _ ?_
      rw [hnoop]
      exact hself1
    · exact hall q hq2

/-- `buildGraphComputeStatuses` terminates on every acyclic graph and
yields the reference status for every node, with all invariants holding
of the final map. -/
theorem computeStatuses_total (g : GraphData) (hWFd : (objKeys g.downstream).Nodup)
    (hA : AcyclicGraph g) :
    ∃ st, buildGraphComputeStatuses g = some st ∧
      MemoInv g st ∧ PreDomInv g st ∧ SuppInv g st ∧
      ∀ p ∈ g.nodes, alookup st (jsonStringifyPath p.2.assetKey.path)
        = some (specStatus g (jsonStringifyPath p.2.assetKey.path)) := by
  obtain ⟨st', h1, _, hM, hPd, hS, hall⟩ :=
    statusLoop_correct g hWFd hA g.nodes (preStatuses g) (fun _ hp => hp)
      (preStatuses_memo g) (preStatuses_preDom g) (preStatuses_supp g)
  exact ⟨st', h1, hM, hPd, hS, hall⟩

theorem preNoneB_false_of_materialized (g : GraphData) (hWF : WFGraph g)
    {p : String × Node} (hp : p ∈ g.nodes)
    (hmat : p.2.definition.assetMaterializations ≠ []) :
    preNoneB g p.1 = false := by
  cases hpre : preNoneB g p.1
  · rfl
  · obtain ⟨q, hq, hcond⟩ := List.any_eq_true.mp hpre
    rw [Bool.and_eq_true, decide_eq_true_eq] at hcond
    have hkey : q.1 = p.1 := by rw [← hWF.2.2.2 q hq, hcond.1]
    have hqp : q = p := nodup_key_eq hWF.1 hq hp hkey
    rw [hqp] at hcond
    exact absurd (List.isEmpty_iff.mp hcond.2) hmat

theorem preNoneB_true_of_empty (g : GraphData) (hWF : WFGraph g)
    {p : String × Node} (hp : p ∈ g.nodes)
    (hmat : p.2.definition.assetMaterializations = []) :
    preNoneB g p.1 = true :=
  List.any_eq_true.mpr ⟨p, hp, by simp [hWF.2.2.2 p hp, hmat]⟩

/-- On a well-formed acyclic graph the reference status of a materialized
node equals the claim-level formula read against any invariant-satisfying
status map containing it. -/
theorem spec_eq_claimFormula (g : GraphData) (hWFd : (objKeys g.downstream).Nodup)
    (hA : AcyclicGraph g)
    {st : List (String × Status)} (hM : MemoInv g st) (hS : SuppInv g st)
    {id : String} (hid : id ∈ univIds g)
    (hnpre : preNoneB g id = false)
    (hlk : alookup st id = some (specStatus g id)) :
    specStatus g id = claimStatusFormula g st id := by
  have hunf := specStatus_unfold g hWFd hA id hid
  rw [hnpre] at hunf
  simp only [Bool.false_eq_true, if_false] at hunf
  unfold claimStatusFormula
  cases hold : oldCondB g id with
  | true =>
    rw [hold, if_pos rfl] at hunf
    rw [if_pos (show (true : Bool) = true from rfl)]
    exact hunf
  | false =>
    rw [hold] at hunf
    simp only [Bool.false_eq_true, if_false] at hunf
    simp only [Bool.false_eq_true, if_false]
    cases hsa : (upstreamIdsOf g id).any
        (fun uid => decide (specStatus g uid ≠ Status.good)) with
    | true =>
      rw [hsa, if_pos rfl] at hunf
      obtain ⟨uid, huid, hsome, hspec⟩ := (hS id).2 (by rw [hlk, hunf])
      obtain ⟨s', hs'⟩ := Option.isSome_iff_exists.mp hsome
      have hsv : s' = specStatus g uid := hM uid s' hs'
      have hclaim : (upstreamIdsOf g id).any
          (fun uid => decide (alookup st uid ≠ some Status.good)) = true := by
        refine List.any_eq_true.mpr ⟨uid, huid, ?_⟩
        rw [hs', hsv]
        simpa using hspec
      rw [hclaim, if_pos (show (true : Bool) = true from rfl)]
      exact hunf
    | false =>
      rw [hsa] at hunf
      simp only [Bool.false_eq_true, if_false] at hunf
      have hdom := (hS id).1 (by rw [hlk, hunf])
      have hallgood : ∀ uid ∈ upstreamIdsOf g id, specStatus g uid = Status.good := by
        intro uid huid
        by_contra hne
        have h2 : (upstreamIdsOf g id).any
            (fun uid => decide (specStatus g uid ≠ Status.good)) = true :=
          List.any_eq_true.mpr ⟨uid, huid, decide_eq_true hne⟩
        rw [hsa] at h2
        exact Bool.false_ne_true h2
      cases hca : (upstreamIdsOf g id).any
          (fun uid => decide (alookup st uid ≠ some Status.good)) with
      | false =>
        simp only [Bool.false_eq_true, if_false]
        exact hunf
      | true =>
        obtain ⟨uid, huid, hp2⟩ := List.any_eq_true.mp hca
        obtain ⟨s', hs'⟩ := Option.isSome_iff_exists.mp (hdom uid huid)
        have hsv : s' = specStatus g uid := hM uid s' hs'
        rw [decide_eq_true_eq] at hp2
        exact absurd (by rw [hs', hsv, hallgood uid huid]) hp2

/-! ### Invariants of the graph builder -/

theorem foldl_inv {α β : Type} (P : β → Prop) (f : β → α → β)
    (hstep : ∀ b a, P b → P (f b a)) :
    ∀ (l : List α) (b : β), P b → P (l.foldl f b) := by
  intro l
  induction l with
  | nil =>
    intro b h
    exact h
  | cons a t ih =>
    intro b h
    exact ih _ (hstep b a h)

theorem mem_objKeys_upsert_of_mem {α : Type} {l : List (String × α)} {k k2 : String}
    (v : α) (h : k2 ∈ objKeys l) : k2 ∈ objKeys (upsert l k v) := by
  rw [objKeys_upsert]
  split
  · exact h
  · exact List.mem_append.mpr (Or.inl h)

theorem self_mem_objKeys_upsert {α : Type} (l : List (String × α)) (k : String) (v : α) :
    k ∈ objKeys (upsert l k v) := by
  rw [objKeys_upsert]
  split
  · next h => exact h
  · exact List.mem_append.mpr (Or.inr (List.mem_singleton.mpr rfl))

theorem buildGraphData_inv (assetDefinitions : List AssetDefinition) :
    BuildInv (buildGraphData assetDefinitions) := by
  unfold buildGraphData
  refine foldl_inv BuildInv _ ?_ assetDefinitions ⟨[], []⟩
    ⟨List.nodup_nil, List.nodup_nil, by simp, by simp, by simp⟩
  intro g definition hInv
  obtain ⟨hn, hdk, hdi, hids, htgt⟩ := hInv
  simp only []
  set j := jsonStringifyPath definition.assetKey.path with hj
  set newNodes := upsert g.nodes j ⟨j, definition.assetKey, definition⟩ with hnew
  have hids' : ∀ p ∈ newNodes, p.2.id = p.1 ∧ jsonStringifyPath p.2.assetKey.path = p.1 := by
    intro p hp
    rcases mem_upsert hp with h | h
    · exact hids p h
    · rw [h]
      exact ⟨rfl, rfl⟩
  have hn' : (objKeys newNodes).Nodup := objKeys_upsert_nodup _ _ hn
  have hQ : ∀ ds : List (String × List (String × String)),
      ((objKeys ds).Nodup ∧ (∀ p ∈ ds, (objKeys p.2).Nodup) ∧
        (∀ p ∈ ds, ∀ q ∈ p.2, q.1 ∈ objKeys newNodes)) →
      ∀ dependency : Dependency,
      ((objKeys (upsert ds (jsonStringifyPath dependency.upstreamAsset.assetKey.path)
          (upsert ((alookup ds (jsonStringifyPath dependency.upstreamAsset.assetKey.path)).getD [])
            j dependency.inputName))).Nodup ∧
        (∀ p ∈ upsert ds (jsonStringifyPath dependency.upstreamAsset.assetKey.path)
          (upsert ((alookup ds (jsonStringifyPath dependency.upstreamAsset.assetKey.path)).getD [])
            j dependency.inputName), (objKeys p.2).Nodup) ∧
        (∀ p ∈ upsert ds (jsonStringifyPath dependency.upstreamAsset.assetKey.path)
          (upsert ((alookup ds (jsonStringifyPath dependency.upstreamAsset.assetKey.path)).getD [])
            j dependency.inputName), ∀ q ∈ p.2, q.1 ∈ objKeys newNodes)) := by
    intro ds hQ0 dependency
    obtain ⟨hq1, hq2, hq3⟩ := hQ0
    set u := jsonStringifyPath dependency.upstreamAsset.assetKey.path with hu
    have hinner_nodup : (objKeys ((alookup ds u).getD [])).Nodup := by
      cases hlk : alookup ds u with
      | none => simp [objKeys]
      | some inner =>
        simp only [Option.getD_some]
        exact hq2 (u, inner) (alookup_mem hlk)
    have hinner_tgt : ∀ q ∈ (alookup ds u).getD [], q.1 ∈ objKeys newNodes := by
      cases hlk : alookup ds u with
      | none => simp
      | some inner =>
        simp only [Option.getD_some]
        exact hq3 (u, inner) (alookup_mem hlk)
    refine ⟨objKeys_upsert_nodup _ _ hq1, ?_, ?_⟩
    · intro p hp
      rcases mem_upsert hp with h | h
      · exact hq2 p h
      · rw [h]
        exact objKeys_upsert_nodup _ _ hinner_nodup
    · intro p hp q hq
      rcases mem_upsert hp with h | h
      · exact hq3 p h q hq
      · rw [h] at hq
        rcases mem_upsert hq with h2 | h2
        · exact hinner_tgt q h2
        · rw [h2]
          exact self_mem_objKeys_upsert _ _ _
  refine ⟨hn', ?_, ?_, hids', ?_⟩
  · refine (foldl_inv (fun ds => (objKeys ds).Nodup ∧ (∀ p ∈ ds, (objKeys p.2).Nodup) ∧
      (∀ p ∈ ds, ∀ q ∈ p.2, q.1 ∈ objKeys newNodes)) _
      (fun ds dep h => hQ ds h dep) definition.dependencies g.downstream
      ⟨hdk, hdi, fun p hp q hq => mem_objKeys_upsert_of_mem _ (htgt p hp q hq)⟩).1
  · refine (foldl_inv (fun ds => (objKeys ds).Nodup ∧ (∀ p ∈ ds, (objKeys p.2).Nodup) ∧
      (∀ p ∈ ds, ∀ q ∈ p.2, q.1 ∈ objKeys newNodes)) _
      (fun ds dep h => hQ ds h dep) definition.dependencies g.downstream
      ⟨hdk, hdi, fun p hp q hq => mem_objKeys_upsert_of_mem _ (htgt p hp q hq)⟩).2.1
  · refine (foldl_inv (fun ds => (objKeys ds).Nodup ∧ (∀ p ∈ ds, (objKeys p.2).Nodup) ∧
      (∀ p ∈ ds, ∀ q ∈ p.2, q.1 ∈ objKeys newNodes)) _
      (fun ds dep h => hQ ds h dep) definition.dependencies g.downstream
      ⟨hdk, hdi, fun p hp q hq => mem_objKeys_upsert_of_mem _ (htgt p hp q hq)⟩).2.2

theorem buildGraphData_wf (assetDefinitions : List AssetDefinition) :
    WFGraph (buildGraphData assetDefinitions) := by
  obtain ⟨h1, h2, h3, h4, _⟩ := buildGraphData_inv assetDefinitions
  exact ⟨h1, h2, h3, fun p hp => (h4 p hp).1⟩

theorem buildGraphData_coherent (assetDefinitions : List AssetDefinition) :
    CoherentIds (buildGraphData assetDefinitions) := by
  obtain ⟨_, _, _, h4, _⟩ := buildGraphData_inv assetDefinitions
  exact fun p hp => (h4 p hp).2

theorem buildGraphData_targets (assetDefinitions : List AssetDefinition) :
    ∀ p ∈ (buildGraphData assetDefinitions).downstream, ∀ q ∈ p.2,
      q.1 ∈ objKeys (buildGraphData assetDefinitions).nodes :=
  (buildGraphData_inv assetDefinitions).2.2.2.2

/-! ### Dangling upstream references -/

theorem timestamps_fold_keys (g : GraphData) :
    ∀ (l : List (String × Node)) (acc : List (String × Int)) (k : String),
      k ∈ objKeys (l.foldl (fun tm p =>
        upsert tm p.2.id (materializationTimestamp p.2.definition)) acc) →
      k ∈ objKeys acc ∨ ∃ p ∈ l, p.2.id = k := by
  intro l
  induction l with
  | nil =>
    intro acc k h
    exact Or.inl h
  | cons p rest ih =>
    intro acc k h
    rw [List.foldl_cons] at h
    rcases ih _ k h with h2 | h2
    · rw [objKeys_upsert] at h2
      by_cases hc : p.2.id ∈ objKeys acc
      · rw [if_pos hc] at h2
        exact Or.inl h2
      · rw [if_neg hc] at h2
        rcases List.mem_append.mp h2 with h3 | h3
        · exact Or.inl h3
        · exact Or.inr ⟨p, List.mem_cons_self _ _, (List.mem_singleton.mp h3).symm⟩
    · obtain ⟨q, hq, hqk⟩ := h2
      exact Or.inr ⟨q, List.mem_cons_of_mem _ hq, hqk⟩

/-- Only present nodes have an entry in the collected timestamp map, so a
dangling upstream id compares as `undefined` (never strictly newer). -/
theorem alookup_timestamps_isSome (g : GraphData)
    (hWFid : ∀ p ∈ g.nodes, p.2.id = p.1) {uid : String}
    (h : (alookup (timestampsOf g) uid).isSome) : uid ∈ objKeys g.nodes := by
  rw [alookup_isSome_iff_mem] at h
  rcases timestamps_fold_keys g g.nodes [] uid h with h2 | h2
  · simp [objKeys] at h2
  · obtain ⟨p, hp, hpk⟩ := h2
    rw [← hpk, hWFid p hp]
    exact List.mem_map.mpr ⟨p, hp, rfl⟩

/-- A dangling id never appears as a downstream target, so it has no
upstream entries. -/
theorem dangling_upstreamIds_nil (g : GraphData)
    (htgt : ∀ p ∈ g.downstream, ∀ q ∈ p.2, q.1 ∈ objKeys g.nodes)
    {uid : String} (h : uid ∉ objKeys g.nodes) :
    upstreamIdsOf g uid = [] := by
  rw [List.eq_nil_iff_forall_not_mem]
  intro x hx
  obtain ⟨inner, hmem, hk⟩ := upE_elim (mem_upstreamIdsOf_upE hx)
  obtain ⟨q, hq, hq1⟩ := List.mem_map.mp hk
  exact h (hq1 ▸ htgt (x, inner) hmem q hq)

theorem preNoneB_false_of_not_node (g : GraphData)
    (hWFid : ∀ p ∈ g.nodes, p.2.id = p.1) {uid : String}
    (h : uid ∉ objKeys g.nodes) : preNoneB g uid = false := by
  cases hpre : preNoneB g uid
  · rfl
  · obtain ⟨q, hq, hcond⟩ := List.any_eq_true.mp hpre
    rw [Bool.and_eq_true, decide_eq_true_eq] at hcond
    have h2 : uid ∈ objKeys g.nodes := by
      rw [← hcond.1, hWFid q hq]
      exact List.mem_map.mpr ⟨q, hq, rfl⟩
    exact absurd h2 h

/-- A dangling upstream id resolves to status `good`: it is not
pre-assigned `none` and it has no upstream edges of its own. -/
theorem dangling_spec_good (g : GraphData)
    (hWFid : ∀ p ∈ g.nodes, p.2.id = p.1) {uid : String}
    (hnot : uid ∉ objKeys g.nodes) (hupnil : upstreamIdsOf g uid = []) :
    specStatus g uid = Status.good := by
  have hpre := preNoneB_false_of_not_node g hWFid hnot
  have hold : oldCondB g uid = false := by
    unfold oldCondB
    rw [hupnil]
    rfl
  unfold specStatus
  rw [specStatusF_succ, hpre]
  simp only [Bool.false_eq_true, if_false]
  rw [hold]
  simp only [Bool.false_eq_true, if_false]
  rw [hupnil]
  rfl

theorem spec_old_elim (g : GraphData) (hWFd : (objKeys g.downstream).Nodup)
    (hA : AcyclicGraph g) {id : String} (hid : id ∈ univIds g)
    (h : specStatus g id = Status.old) : oldCondB g id = true := by
  have hunf := specStatus_unfold g hWFd hA id hid
  rw [h] at hunf
  cases hpre : preNoneB g id
  · rw [hpre] at hunf
    simp only [Bool.false_eq_true, if_false] at hunf
    cases hold : oldCondB g id
    · rw [hold] at hunf
      simp only [Bool.false_eq_true, if_false] at hunf
      cases hany : (upstreamIdsOf g id).any
          (fun uid => decide (specStatus g uid ≠ Status.good))
      · rw [hany] at hunf
        simp at hunf
      · rw [hany] at hunf
        simp at hunf
    · rfl
  · rw [hpre] at hunf
    simp at hunf

theorem jsGt_true_elim {a b : Option Int} (h : jsGt a b = true) :
    ∃ x y, a = some x ∧ b = some y ∧ y < x := by
  cases a with
  | none => simp [jsGt] at h
  | some x =>
    cases b with
    | none => simp [jsGt] at h
    | some y => exact ⟨x, y, rfl, rfl, by simpa [jsGt] using h⟩

/-! ### The claims -/

/-- C1 (code bug): the claim says `graphHasCycles` always runs to
completion, returning `true` as soon as one cycle is found, in particular
on a graph containing a cycle plus nodes not visited by the traversal
that found it.  The code does not: on `c1Graph` (self-loop on `a`, plus
the unrelated node `b`) the first search returns `true` with `b` still in
the unvisited set, and from then on `hasCycles || search(...)`
short-circuits, so `search` is never called again, the set never shrinks,
and the `while (nodes.size !== 0)` loop never exits.  The theorem shows
`c1Graph` does contain a node-level cycle and that the loop fails to
complete at every fuel bound, i.e. the source loop diverges. -/
theorem c1_graphHasCycles_never_terminates :
    NodeCycle c1Graph ∧ graphHasCycles c1Graph = Option.none ∧
      ∀ fuel, hasCyclesLoop c1Graph fuel false (nodeKeys c1Graph) = Option.none := by
  refine ⟨⟨[jsonStringifyPath ["a"]], by simp, List.chain'_pair.mpr (by decide),
    by decide⟩, rfl, ?_⟩
  intro fuel
  cases fuel with
  | zero => rfl
  | succ f =>
    have h2 : hasCyclesLoop c1Graph (f + 1) false (nodeKeys c1Graph) =
        hasCyclesLoop c1Graph f true [jsonStringifyPath ["b"]] := rfl
    rw [h2]
    exact hasCyclesLoop_spin c1Graph f _ (by simp)

/-- C5: `graphHasCycles` returns `true` on the three-cycle
`a → b → c → a`, and `false` on every graph with no directed cycle
through present nodes (hence on every DAG: empty graph, single node,
disjoint components, cross edges).  A cycle is reported only on
revisiting a node of the current recursion path: `searchF_sound` shows
a `true` verdict always exhibits a node-level cycle, so graphs whose only
repeated visits are cross/forward edges return `false`. -/
theorem c5_graphHasCycles_correct :
    graphHasCycles c5Graph = some true ∧
      ∀ g : GraphData, ¬ NodeCycle g → graphHasCycles g = some false := by
  constructor
  · rfl
  · intro g hnc
    unfold graphHasCycles
    exact hasCyclesLoop_false g hnc ((nodeKeys g).length + 1) (nodeKeys g)
      (fun x hx => hx) (Nat.lt_succ_self _)

/-- Witness for C5: the empty graph is a DAG and gets `false`. -/
theorem c5_graphHasCycles_correct_witness :
    graphHasCycles (GraphData.mk [] []) = some false := by
  refine c5_graphHasCycles_correct.2 (GraphData.mk [] []) ?_
  rintro ⟨c, hne, _, hmem⟩
  obtain ⟨x, t, rfl⟩ := List.exists_cons_of_ne_nil hne
  have h2 := hmem x (List.mem_cons_self _ _)
  simp [nodeKeys, objKeys] at h2

/-- C8: determinism — `build` followed by `computeStatuses` is a pure
function of the input definition list; the memo tables (`statuses`, the
traversal `Set`, `timestamps`, `upstream`) are created inside the
invocation and never escape, which the embedding reflects by both
invocations being the same closed term.  Two runs on the same input yield
the same status map. -/
theorem c8_build_then_statuses_deterministic :
    ∀ assetDefinitions : List AssetDefinition,
      buildGraphComputeStatuses (buildGraphData assetDefinitions)
        = buildGraphComputeStatuses (buildGraphData assetDefinitions) :=
  fun _ => rfl

/-- C4 (refuted): the claim says edges from the same upstream into the
same downstream under *different* input names are all retained.  They are
not: the inner adjacency object is keyed by the *downstream id* with the
input name as the value, so `c4Def`'s two dependencies on `u` (input
names `in1`, `in2`) leave a single entry holding only `in2`. -/
theorem c4_same_pair_edges_collapse :
    (buildGraphData [c4Def]).downstream =
      [(jsonStringifyPath ["u"], [(jsonStringifyPath ["d"], "in2")])] := rfl

/-- C4 amended: the adjacency keeps at most one entry per
upstream/downstream *pair* (the inner key lists are duplicate-free), and
a later dependency with the same upstream and downstream overwrites the
earlier one's input name even when the input names differ. -/
theorem c4_amended_one_edge_per_pair :
    (∀ (assetDefinitions : List AssetDefinition) (u : String),
      (objKeys ((alookup (buildGraphData assetDefinitions).downstream u).getD [])).Nodup) ∧
    ∀ a b : String,
      (buildGraphData [c4DefWith a b]).downstream =
        [(jsonStringifyPath ["u"], [(jsonStringifyPath ["d"], b)])] := by
  constructor
  · intro assetDefinitions u
    obtain ⟨_, _, h3, _, _⟩ := buildGraphData_inv assetDefinitions
    cases hlk : alookup (buildGraphData assetDefinitions).downstream u with
    | none => simp [objKeys]
    | some inner =>
      simp only [Option.getD_some]
      exact h3 (u, inner) (alookup_mem hlk)
  · intro a b
    rfl

/-- C2: on every well-formed acyclic graph, every node with at least one
materialization receives exactly the claimed status: `old` when some
direct upstream's collected timestamp is strictly greater than its own,
else `downstream-from-old` when some direct upstream's own computed
status is not `good` (a `none` or absent status counts as not `good`),
else `good` — so a materialized node with no upstream edges is `good`. -/
theorem c2_computeStatuses_formula :
    ∀ g : GraphData, WFGraph g → CoherentIds g → AcyclicGraph g →
      ∃ st, buildGraphComputeStatuses g = some st ∧
        ∀ p ∈ g.nodes, p.2.definition.assetMaterializations ≠ [] →
          alookup st p.1 = some (claimStatusFormula g st p.1) := by
  intro g hWF hCo hA
  obtain ⟨st, heq, hM, _, hS, hall⟩ := computeStatuses_total g hWF.2.1 hA
  refine ⟨st, heq, ?_⟩
  intro p hp hmat
  have hstr : jsonStringifyPath p.2.assetKey.path = p.1 := hCo p hp
  have hlkp : alookup st p.1 = some (specStatus g p.1) := by
    have h2 := hall p hp
    rw [hstr] at h2
    exact h2
  rw [hlkp, spec_eq_claimFormula g hWF.2.1 hA hM hS (nodeKey_mem_univ g hp)
    (preNoneB_false_of_materialized g hWF hp hmat) hlkp]

/-- Witness for C2 at the chain `a → b` with timestamps 10 and 5. -/
theorem c2_computeStatuses_formula_witness :
    ∃ st, buildGraphComputeStatuses c2Graph = some st ∧
      ∀ p ∈ c2Graph.nodes, p.2.definition.assetMaterializations ≠ [] →
        alookup st p.1 = some (claimStatusFormula c2Graph st p.1) :=
  c2_computeStatuses_formula c2Graph (by decide) (by decide)
    (acyclic_of_rank c2Graph
      (fun s => if s = jsonStringifyPath ["a"] then 1 else 0) (by decide))

/-- C3 (refuted): the claim says the memoized recursion terminates on
every graph, including a latent cycle, because a memoized status is never
recomputed.  It is false: the memo entry for an id is written only
*after* the recursive calls on its upstream ids return, so on the cycle
`a ⇄ b` (both materialized, equal timestamps) `findComputeStatusForId`
re-enters the never-memoized ids forever — at every recursion depth the
computation is still unfinished — and `buildGraphComputeStatuses` never
completes. -/
theorem c3_find_memo_not_cycle_safe :
    FindDiverges c3Graph (jsonStringifyPath ["a"]) ∧
      buildGraphComputeStatuses c3Graph = Option.none := by
  have key : ∀ fuel,
      findComputeStatusForIdF fuel (timestampsOf c3Graph) (preStatuses c3Graph)
        (buildUpstream c3Graph.downstream) (jsonStringifyPath ["a"]) = Option.none ∧
      findComputeStatusForIdF fuel (timestampsOf c3Graph) (preStatuses c3Graph)
        (buildUpstream c3Graph.downstream) (jsonStringifyPath ["b"]) = Option.none := by
    intro fuel
    induction fuel with
    | zero => exact ⟨rfl, rfl⟩
    | succ f ih =>
      constructor
      · have hstep : findComputeStatusForIdF (f + 1) (timestampsOf c3Graph)
            (preStatuses c3Graph) (buildUpstream c3Graph.downstream)
            (jsonStringifyPath ["a"]) =
            match findMany f (timestampsOf c3Graph) (buildUpstream c3Graph.downstream)
                [jsonStringifyPath ["b"]] (preStatuses c3Graph) with
            | Option.none => Option.none
            | some (found, st2) =>
              some (if found then Status.downstreamFromOld else Status.good,
                upsert st2 (jsonStringifyPath ["a"])
                  (if found then Status.downstreamFromOld else Status.good)) := by
          rw [findF_succ]
          rfl
        have h2 : findMany f (timestampsOf c3Graph) (buildUpstream c3Graph.downstream)
            [jsonStringifyPath ["b"]] (preStatuses c3Graph) = Option.none := by
          rw [findMany, ih.2]
        rw [hstep, h2]
      · have hstep : findComputeStatusForIdF (f + 1) (timestampsOf c3Graph)
            (preStatuses c3Graph) (buildUpstream c3Graph.downstream)
            (jsonStringifyPath ["b"]) =
            match findMany f (timestampsOf c3Graph) (buildUpstream c3Graph.downstream)
                [jsonStringifyPath ["a"]] (preStatuses c3Graph) with
            | Option.none => Option.none
            | some (found, st2) =>
              some (if found then Status.downstreamFromOld else Status.good,
                upsert st2 (jsonStringifyPath ["b"])
                  (if found then Status.downstreamFromOld else Status.good)) := by
          rw [findF_succ]
          rfl
        have h2 : findMany f (timestampsOf c3Graph) (buildUpstream c3Graph.downstream)
            [jsonStringifyPath ["a"]] (preStatuses c3Graph) = Option.none := by
          rw [findMany, ih.1]
        rw [hstep, h2]
  exact ⟨fun fuel => (key fuel).1, rfl⟩

/-- C3 amended: memoization is *not* cycle-safety (see the counterexample
theorem); what does hold is that on every well-formed **acyclic** graph
the status recursion and the surrounding loops terminate and produce a
status map. -/
theorem c3_amended_terminates_on_acyclic :
    ∀ g : GraphData, WFGraph g → AcyclicGraph g →
      ∃ st, buildGraphComputeStatuses g = some st := by
  intro g hWF hA
  obtain ⟨st, heq, _, _, _, _⟩ := computeStatuses_total g hWF.2.1 hA
  exact ⟨st, heq⟩

/-- Witness for the amended C3 at the acyclic chain `a → b`. -/
theorem c3_amended_terminates_on_acyclic_witness :
    ∃ st, buildGraphComputeStatuses c2Graph = some st :=
  c3_amended_terminates_on_acyclic c2Graph (by decide)
    (acyclic_of_rank c2Graph
      (fun s => if s = jsonStringifyPath ["a"] then 1 else 0) (by decide))

/-- C6: on every well-formed acyclic graph, a node with an empty
materialization list is assigned status `none`, whatever its position in
the graph. -/
theorem c6_unmaterialized_is_none :
    ∀ g : GraphData, WFGraph g → CoherentIds g → AcyclicGraph g →
      ∃ st, buildGraphComputeStatuses g = some st ∧
        ∀ p ∈ g.nodes, p.2.definition.assetMaterializations = [] →
          alookup st p.1 = some Status.none := by
  intro g hWF hCo hA
  obtain ⟨st, heq, _, _, _, hall⟩ := computeStatuses_total g hWF.2.1 hA
  refine ⟨st, heq, ?_⟩
  intro p hp hmat
  have hstr := hCo p hp
  have hlkp : alookup st p.1 = some (specStatus g p.1) := by
    have h2 := hall p hp
    rw [hstr] at h2
    exact h2
  have hspec : specStatus g p.1 = Status.none := by
    unfold specStatus
    rw [specStatusF_succ, preNoneB_true_of_empty g hWF hp hmat]
    rfl
  rw [hlkp, hspec]

/-- Witness for C6: the unmaterialized source `a` of `c6Graph`. -/
theorem c6_unmaterialized_is_none_witness :
    ∃ st, buildGraphComputeStatuses c6Graph = some st ∧
      ∀ p ∈ c6Graph.nodes, p.2.definition.assetMaterializations = [] →
        alookup st p.1 = some Status.none :=
  c6_unmaterialized_is_none c6Graph (by decide) (by decide)
    (acyclic_of_rank c6Graph
      (fun s => if s = jsonStringifyPath ["a"] then 1 else 0) (by decide))

/-- C7: building never fails on dangling upstream references, a dangling
upstream id has no collected timestamp (so it can never make the
`timestamps[uid] > ts` comparison true) and no upstream edges of its own,
and whenever a node is classified `old` or `downstream-from-old`, the
responsible direct upstream is a *present* node: `old` always comes with
a present upstream whose collected timestamp is strictly newer, and
`downstream-from-old` with a present upstream whose computed status is
not `good`. -/
theorem c7_dangling_upstream_harmless :
    ∀ assetDefinitions : List AssetDefinition,
      AcyclicGraph (buildGraphData assetDefinitions) →
      ∃ st, buildGraphComputeStatuses (buildGraphData assetDefinitions) = some st ∧
        (∀ uid, uid ∉ objKeys (buildGraphData assetDefinitions).nodes →
          alookup (timestampsOf (buildGraphData assetDefinitions)) uid = Option.none ∧
          upstreamIdsOf (buildGraphData assetDefinitions) uid = []) ∧
        (∀ p ∈ (buildGraphData assetDefinitions).nodes, ∀ s,
          alookup st p.1 = some s →
          (s = Status.old →
            ∃ uid ∈ upstreamIdsOf (buildGraphData assetDefinitions) p.1,
              uid ∈ objKeys (buildGraphData assetDefinitions).nodes ∧
              jsGt (alookup (timestampsOf (buildGraphData assetDefinitions)) uid)
                (alookup (timestampsOf (buildGraphData assetDefinitions)) p.1) = true) ∧
          (s = Status.downstreamFromOld →
            ∃ uid ∈ upstreamIdsOf (buildGraphData assetDefinitions) p.1,
              uid ∈ objKeys (buildGraphData assetDefinitions).nodes ∧
              ∃ s2, alookup st uid = some s2 ∧ s2 ≠ Status.good)) := by
  intro assetDefinitions hA
  set g := buildGraphData assetDefinitions with hg
  have hWF : WFGraph g := buildGraphData_wf assetDefinitions
  have hWFid : ∀ p ∈ g.nodes, p.2.id = p.1 := hWF.2.2.2
  have htgt : ∀ p ∈ g.downstream, ∀ q ∈ p.2, q.1 ∈ objKeys g.nodes :=
    buildGraphData_targets assetDefinitions
  obtain ⟨st, heq, hM, _, hS, _⟩ := computeStatuses_total g hWF.2.1 hA
  refine ⟨st, heq, ?_, ?_⟩
  · intro uid hnot
    constructor
    · cases hlk : alookup (timestampsOf g) uid with
      | none => rfl
      | some t =>
        exact absurd (alookup_timestamps_isSome g hWFid (by rw [hlk]; rfl)) hnot
    · exact dangling_upstreamIds_nil g htgt hnot
  · intro p hp s hlk2
    have hspec : s = specStatus g p.1 := hM p.1 s hlk2
    constructor
    · intro hold
      have hso : specStatus g p.1 = Status.old := by rw [← hspec, hold]
      have hoc := spec_old_elim g hWF.2.1 hA (nodeKey_mem_univ g hp) hso
      obtain ⟨uid, huid, hjs⟩ := List.any_eq_true.mp hoc
      obtain ⟨x, y, hx, _, _⟩ := jsGt_true_elim hjs
      refine ⟨uid, huid, ?_, hjs⟩
      exact alookup_timestamps_isSome g hWFid (by rw [hx]; rfl)
    · intro hdfo
      have hsd : alookup st p.1 = some Status.downstreamFromOld := by
        rw [hlk2, hdfo]
      obtain ⟨uid, huid, hsome, hspec2⟩ := (hS p.1).2 hsd
      have hreal : uid ∈ objKeys g.nodes := by
        by_contra hnot
        exact hspec2 (dangling_spec_good g hWFid hnot
          (dangling_upstreamIds_nil g htgt hnot))
      obtain ⟨s2, hs2⟩ := Option.isSome_iff_exists.mp hsome
      refine ⟨uid, huid, hreal, s2, hs2, ?_⟩
      rw [hM uid s2 hs2]
      exact hspec2

/-- Witness for C7: one definition depending on the missing asset
`ghost`. -/
theorem c7_dangling_upstream_harmless_witness :
    ∃ st, buildGraphComputeStatuses (buildGraphData c7Defs) = some st ∧
      (∀ uid, uid ∉ objKeys (buildGraphData c7Defs).nodes →
        alookup (timestampsOf (buildGraphData c7Defs)) uid = Option.none ∧
        upstreamIdsOf (buildGraphData c7Defs) uid = []) ∧
      (∀ p ∈ (buildGraphData c7Defs).nodes, ∀ s,
        alookup st p.1 = some s →
        (s = Status.old →
          ∃ uid ∈ upstreamIdsOf (buildGraphData c7Defs) p.1,
            uid ∈ objKeys (buildGraphData c7Defs).nodes ∧
            jsGt (alookup (timestampsOf (buildGraphData c7Defs)) uid)
              (alookup (timestampsOf (buildGraphData c7Defs)) p.1) = true) ∧
        (s = Status.downstreamFromOld →
          ∃ uid ∈ upstreamIdsOf (buildGraphData c7Defs) p.1,
            uid ∈ objKeys (buildGraphData c7Defs).nodes ∧
            ∃ s2, alookup st uid = some s2 ∧ s2 ≠ Status.good)) :=
  c7_dangling_upstream_harmless c7Defs
    (acyclic_of_rank (buildGraphData c7Defs)
      (fun s => if s = jsonStringifyPath ["ghost"] then 1 else 0) (by decide))

/-- C9: the dimension formulas.  With no description and no
materializations the computed size is `max(250, 9.5·L) + 25 × 40`, where
`L` is the length of the path segments joined by `>`; a (non-empty,
i.e. JS-truthy) description adds 25 to the height, at least one
materialization adds 22, and 22 more when that materialization's run
reference resolves to the known `PipelineRun` record variant. -/
theorem c9_getNodeDimensions_dimensions :
    ∀ d : AssetDefinition,
      (d.description = Option.none → d.assetMaterializations = [] →
        getNodeDimensions d = Except.ok
          ⟨max 250 (((String.intercalate ">" d.assetKey.path).length : ℚ) * (9.5 : ℚ)) + 25,
            40⟩) ∧
      (∀ s, d.description = some s → s ≠ "" → d.assetMaterializations = [] →
        getNodeDimensions d = Except.ok
          ⟨max 250 (((String.intercalate ">" d.assetKey.path).length : ℚ) * (9.5 : ℚ)) + 25,
            40 + 25⟩) ∧
      (∀ m rest, d.assetMaterializations = m :: rest → d.description = Option.none →
        m.runOrError = RunOrError.other →
        getNodeDimensions d = Except.ok
          ⟨max 250 (((String.intercalate ">" d.assetKey.path).length : ℚ) * (9.5 : ℚ)) + 25,
            40 + 22⟩) ∧
      (∀ m rest run, d.assetMaterializations = m :: rest → d.description = Option.none →
        m.runOrError = RunOrError.pipelineRun run →
        getNodeDimensions d = Except.ok
          ⟨max 250 (((String.intercalate ">" d.assetKey.path).length : ℚ) * (9.5 : ℚ)) + 25,
            40 + 22 + 22⟩) := by
  intro d
  refine ⟨?_, ?_, ?_, ?_⟩
  · intro hdesc hmats
    simp [getNodeDimensions, jsTruthyStr, hdesc, hmats]
  · intro s hdesc hs hmats
    simp [getNodeDimensions, jsTruthyStr, hdesc, hs, hmats]
  · intro m rest hmats hdesc hro
    simp [getNodeDimensions, jsTruthyStr, hdesc, hmats, runForDisplay, hro, bind, Except.bind, pure, Except.pure]
  · intro m rest run hmats hdesc hro
    simp [getNodeDimensions, jsTruthyStr, hdesc, hmats, runForDisplay, hro, bind, Except.bind, pure, Except.pure]

/-- Witness for C9 at four concrete definitions (joined path `a>b` has
length 3 in the first one). -/
theorem c9_getNodeDimensions_dimensions_witness :
    getNodeDimensions ⟨⟨["a", "b"]⟩, Option.none, [], [], []⟩ =
      Except.ok
        ⟨max 250 (((String.intercalate ">" ["a", "b"]).length : ℚ) * (9.5 : ℚ)) + 25, 40⟩ ∧
    getNodeDimensions ⟨⟨["a"]⟩, some "info", [], [], []⟩ =
      Except.ok
        ⟨max 250 (((String.intercalate ">" ["a"]).length : ℚ) * (9.5 : ℚ)) + 25, 40 + 25⟩ ∧
    getNodeDimensions ⟨⟨["a"]⟩, Option.none, [], [], [matAt 1]⟩ =
      Except.ok
        ⟨max 250 (((String.intercalate ">" ["a"]).length : ℚ) * (9.5 : ℚ)) + 25, 40 + 22⟩ ∧
    getNodeDimensions ⟨⟨["a"]⟩, Option.none, [], [], [matRunAt 1]⟩ =
      Except.ok
        ⟨max 250 (((String.intercalate ">" ["a"]).length : ℚ) * (9.5 : ℚ)) + 25,
          40 + 22 + 22⟩ :=
  ⟨(c9_getNodeDimensions_dimensions _).1 rfl rfl,
    (c9_getNodeDimensions_dimensions _).2.1 "info" rfl (by decide) rfl,
    (c9_getNodeDimensions_dimensions _).2.2.1 (matAt 1) [] rfl rfl rfl,
    (c9_getNodeDimensions_dimensions _).2.2.2 (matRunAt 1) []
      ⟨"run1", "SUCCESS", "job", "default"⟩ rfl rfl rfl⟩

/-- C10: `getNodeDimensions` is total — it returns a dimension pair for
every definition, including one with an empty materialization list —
while `runForDisplay` itself throws (`TypeError`) exactly there; the
guard `if (def.assetMaterializations.length)` is what keeps the
combination safe. -/
theorem c10_getNodeDimensions_total :
    (∀ d : AssetDefinition, ∃ dims, getNodeDimensions d = Except.ok dims) ∧
    ∀ d : AssetDefinition, d.assetMaterializations = [] →
      ∃ msg, runForDisplay d = Except.error msg := by
  constructor
  · intro d
    cases hmats : d.assetMaterializations with
    | nil =>
      refine ⟨⟨max 250 (((String.intercalate ">" d.assetKey.path).length : ℚ) * (9.5 : ℚ))
          + 25, if jsTruthyStr d.description then 40 + 25 else 40⟩, ?_⟩
      cases hdesc : jsTruthyStr d.description <;>
        simp [getNodeDimensions, hmats, hdesc]
    | cons m rest =>
      cases hro : m.runOrError with
      | other =>
        refine ⟨⟨max 250 (((String.intercalate ">" d.assetKey.path).length : ℚ) * (9.5 : ℚ))
            + 25, (if jsTruthyStr d.description then 40 + 25 else 40) + 22⟩, ?_⟩
        cases hdesc : jsTruthyStr d.description <;>
          simp [getNodeDimensions, runForDisplay, hmats, hro, hdesc, bind, Except.bind, pure, Except.pure]
      | pipelineRun run =>
        refine ⟨⟨max 250 (((String.intercalate ">" d.assetKey.path).length : ℚ) * (9.5 : ℚ))
            + 25, (if jsTruthyStr d.description then 40 + 25 else 40) + 22 + 22⟩, ?_⟩
        cases hdesc : jsTruthyStr d.description <;>
          simp [getNodeDimensions, runForDisplay, hmats, hro, hdesc, bind, Except.bind, pure, Except.pure]
  · intro d h
    exact ⟨"TypeError: undefined has no properties", by simp [runForDisplay, h]⟩

/-- Witness for C10 at a definition with no materializations. -/
theorem c10_getNodeDimensions_total_witness :
    (∃ dims, getNodeDimensions ⟨⟨["a"]⟩, Option.none, [], [], []⟩ = Except.ok dims) ∧
    ∃ msg, runForDisplay ⟨⟨["a"]⟩, Option.none, [], [], []⟩ = Except.error msg :=
  ⟨c10_getNodeDimensions_total.1 _, c10_getNodeDimensions_total.2 _ rfl⟩

end AssetGraph
